import Mathlib

/-!
# Verification of the wall-painting trajectory planner

Shallow embedding of `app/planner.py`: grid construction, obstacle marking,
boustrophedon sweep with A* navigation, isolated-region cleanup and waypoint
de-duplication.  Python floats are modelled as exact rationals (`ℚ`), Python
lists as `List`, and in-place mutation of grid cells as functional update of
the grid value threaded through each function.  The A* main loop and the
path reconstruction loop are `while` loops in the source; they are embedded
with an explicit fuel argument large enough that (as proved below for the
main loop) the fuel never runs out on the inputs the planner produces.

The rational arithmetic of Batteries is `@[irreducible]`; restoring the
default reducibility lets `decide` evaluate the planner on the concrete
configurations used as counterexamples (the kernel itself ignores
reducibility attributes, so nothing about the checked proofs changes).
-/

set_option allowUnsafeReducibility true
attribute [semireducible] Rat.add Rat.sub Rat.mul Rat.inv Rat.div Rat.ofScientific

/-- `Obstacle` from `planner.py`: axis-aligned rectangle, lower-left origin. -/
structure Obstacle where
  x : ℚ
  y : ℚ
  width : ℚ
  height : ℚ
deriving DecidableEq, Repr

/-- `WallConfig` from `planner.py`. -/
structure WallConfig where
  width : ℚ
  height : ℚ
  coverage_width : ℚ
  obstacles : List Obstacle
deriving DecidableEq, Repr

/-- `Waypoint` from `planner.py`; `action` is the string "move" or "paint". -/
structure Waypoint where
  x : ℚ
  y : ℚ
  action : String
deriving DecidableEq, Repr

/-- `Cell` from `planner.py`: grid unit with fixed center and two mutable flags. -/
structure Cell where
  row : ℕ
  col : ℕ
  x : ℚ
  y : ℚ
  visited : Bool
  blocked : Bool
deriving DecidableEq, Repr

instance : Inhabited Cell := ⟨⟨0, 0, 0, 0, false, false⟩⟩

/-- A grid is the Python `List[List[Cell]]`. -/
abbrev Grid := List (List Cell)

/-- `grid[r][c]` (callers index in bounds; out of bounds yields the default). -/
def cellAt (grid : Grid) (r c : ℕ) : Cell :=
  (grid.getD r []).getD c default

/-- In-place update of one list element, used to model cell mutation. -/
def listModify (f : α → α) : ℕ → List α → List α
  | _, [] => []
  | 0, a :: as => f a :: as
  | n + 1, a :: as => a :: listModify f n as

/-- Model of `cell.visited = True` for the cell at `(r, c)`. -/
def setVisited (grid : Grid) (r c : ℕ) : Grid :=
  listModify (listModify (fun cell => { cell with visited := true }) c) r grid

/-- `num_rows = max(1, int(config.height / config.coverage_width))`.
Python `int()` truncates toward zero; after the `max(1, ·)` clamp this agrees
with `⌊·⌋` clamped to `ℕ`. -/
def num_rows (config : WallConfig) : ℕ :=
  max 1 (Int.toNat ⌊config.height / config.coverage_width⌋)

/-- `num_cols = max(1, int(config.width / config.coverage_width))`. -/
def num_cols (config : WallConfig) : ℕ :=
  max 1 (Int.toNat ⌊config.width / config.coverage_width⌋)

/-- `create_grid` from `planner.py`. -/
def create_grid (config : WallConfig) : Grid :=
  (List.range (num_rows config)).map (fun row =>
    (List.range (num_cols config)).map (fun col =>
      { row := row, col := col,
        x := ((col : ℚ) + 1/2) * config.coverage_width,
        y := ((row : ℚ) + 1/2) * config.coverage_width,
        visited := false, blocked := false }))

/-- The inflated-bounding-box test of `mark_obstacles`:
cell center inside the obstacle expanded by `margin = 0.3 * coverage_width`. -/
def obstacleCovers (config : WallConfig) (obs : Obstacle) (cx cy : ℚ) : Bool :=
  let margin := config.coverage_width * (3/10)
  decide (obs.x - margin ≤ cx) && decide (cx ≤ obs.x + obs.width + margin) &&
  decide (obs.y - margin ≤ cy) && decide (cy ≤ obs.y + obs.height + margin)

/-- `mark_obstacles` from `planner.py`: scanning the obstacle list with an
early `break` on the first match sets `blocked` exactly when some obstacle's
inflated box contains the cell center; an already-true flag is never reset. -/
def mark_obstacles (grid : Grid) (config : WallConfig) : Grid :=
  grid.map (fun gridRow => gridRow.map (fun cell =>
    if cell.blocked || config.obstacles.any (fun obs => obstacleCovers config obs cell.x cell.y)
    then { cell with blocked := true }
    else cell))

/-- Scanner of `get_row_segments`: `col` is the index of the head of the
remaining list, `start_col` the pending open segment. -/
def segsAux : List Cell → ℕ → Option ℕ → List (ℕ × ℕ)
  | [], _, none => []
  | [], col, some s => [(s, col - 1)]
  | c :: rest, col, none =>
      if !c.blocked then segsAux rest (col + 1) (some col)
      else segsAux rest (col + 1) none
  | c :: rest, col, some s =>
      if !c.blocked then segsAux rest (col + 1) (some s)
      else (s, col - 1) :: segsAux rest (col + 1) none

/-- `get_row_segments` from `planner.py`: maximal runs of unblocked cells. -/
def get_row_segments (grid : Grid) (row : ℕ) : List (ℕ × ℕ) :=
  segsAux (grid.getD row []) 0 none

/-- `is_adjacent` from `planner.py`. -/
def is_adjacent (x1 y1 x2 y2 coverage : ℚ) : Bool :=
  decide (|x2 - x1| < coverage * (3/2)) && decide (|y2 - y1| < coverage * (3/2))

/-- The body of `find_nearest_cell`'s scan: keep the first cell attaining
the strictly smallest squared distance so far. -/
def nearStep (x y : ℚ) (acc : Option (ℚ × Cell)) (cell : Cell) : Option (ℚ × Cell) :=
  let dist := (cell.x - x) ^ 2 + (cell.y - y) ^ 2
  match acc with
  | none => some (dist, cell)
  | some best => if dist < best.1 then some (dist, cell) else some best

/-- `find_nearest_cell` from `planner.py`: brute-force scan over all cells. -/
def find_nearest_cell (grid : Grid) (x y : ℚ) : Option Cell :=
  if grid = [] ∨ grid.headI = [] then none
  else (grid.flatten.foldl (nearStep x y) none).map Prod.snd

/-- `remove_consecutive_duplicates` inner loop: `prev` is the last kept waypoint. -/
def rcdAux (prev : Waypoint) : List Waypoint → List Waypoint
  | [] => []
  | w :: rest =>
      if |w.x - prev.x| > 1/1000 ∨ |w.y - prev.y| > 1/1000 then w :: rcdAux w rest
      else rcdAux prev rest

/-- `remove_consecutive_duplicates` from `planner.py`. -/
def remove_consecutive_duplicates : List Waypoint → List Waypoint
  | [] => []
  | w :: rest => w :: rcdAux w rest

/-! ## Navigator (A* pathfinder) -/

/-- Manhattan heuristic of `find_path_around_obstacles`. -/
def heuristic (target cell : Cell) : ℚ :=
  |cell.x - target.x| + |cell.y - target.y|

/-- The strict order `heapq` uses on its `(f_score, cell)` entries: tuple
comparison, cells compared by `(row, col)` via `Cell.__lt__`. -/
def keyLt (a b : ℚ × Cell) : Prop :=
  a.1 < b.1 ∨ (a.1 = b.1 ∧ (a.2.row < b.2.row ∨ (a.2.row = b.2.row ∧ a.2.col < b.2.col)))

instance : DecidableRel keyLt := fun a b => by
  unfold keyLt; infer_instance

/-- Scan for the least entry, returning it and the remaining entries.
`best` is the least entry seen so far. -/
def popMinAux (best : ℚ × Cell) : List (ℚ × Cell) → ((ℚ × Cell) × List (ℚ × Cell))
  | [] => (best, [])
  | e :: rest =>
      if keyLt e best then
        let p := popMinAux e rest
        (p.1, best :: p.2)
      else
        let p := popMinAux best rest
        (p.1, e :: p.2)

/-- `heapq.heappop`: remove and return the least entry of the open set
(a binary heap always pops a minimum of its current multiset, and entries
with equal keys are equal values here, so extract-min is an exact model). -/
def popMin : List (ℚ × Cell) → Option ((ℚ × Cell) × List (ℚ × Cell))
  | [] => none
  | e :: rest => some (popMinAux e rest)

/-- The mutable state of the A* loop: the open set (`heapq` list), the
`came_from` dict and the `g_score` dict. -/
structure AState where
  open_set : List (ℚ × Cell)
  came : ℕ × ℕ → Option Cell
  g : ℕ × ℕ → Option ℚ

/-- One step of the neighbor loop of `find_path_around_obstacles`:
bounds check, blocked check, relaxation and push. -/
def relaxNeighbor (grid : Grid) (config : WallConfig) (target current : Cell)
    (st : AState) (d : ℤ × ℤ) : AState :=
  let nr : ℤ := (current.row : ℤ) + d.1
  let nc : ℤ := (current.col : ℤ) + d.2
  if nr < 0 ∨ (grid.length : ℤ) ≤ nr then st
  else if nc < 0 ∨ ((grid.headI).length : ℤ) ≤ nc then st
  else
    let neighbor := cellAt grid nr.toNat nc.toNat
    if neighbor.blocked then st
    else
      let tentative := (st.g (current.row, current.col)).getD 0 + config.coverage_width
      let improves :=
        match st.g (neighbor.row, neighbor.col) with
        | none => true
        | some gn => decide (tentative < gn)
      if improves then
        { open_set := (tentative + heuristic target neighbor, neighbor) :: st.open_set,
          came := fun p =>
            if p = (neighbor.row, neighbor.col) then some current else st.came p,
          g := fun p =>
            if p = (neighbor.row, neighbor.col) then some tentative else st.g p }
      else st

/-- The four `(dr, dc)` neighbor offsets, in source order. -/
def neighborDirs : List (ℤ × ℤ) := [(0, 1), (0, -1), (1, 0), (-1, 0)]

/-- `reconstruct_path` from `planner.py`.  The Python builds the list from
the target backwards and reverses it; this recursion produces the reversed
(start-to-target) order directly, skipping the start cell.  The chain of
`came_from` pointers is acyclic (g-scores strictly decrease along it), so
the fuel passed by callers is never exhausted. -/
def reconstructAux (came : ℕ × ℕ → Option Cell) (start : Cell) :
    ℕ → Cell → List Waypoint
  | 0, _ => []
  | fuel + 1, current =>
      match came (current.row, current.col) with
      | none => []
      | some prev =>
          if current.row = start.row ∧ current.col = start.col then
            reconstructAux came start fuel prev
          else
            reconstructAux came start fuel prev ++ [⟨current.x, current.y, "move"⟩]

/-- Total number of grid cells. -/
def cellCount (grid : Grid) : ℕ := (grid.map List.length).sum

def reconstruct_path (came : ℕ × ℕ → Option Cell) (current start : Cell)
    (fuel : ℕ) : List Waypoint :=
  reconstructAux came start fuel current

/-- The `while open_set:` loop of `find_path_around_obstacles`. -/
def astarLoop (grid : Grid) (config : WallConfig) (target start : Cell) :
    ℕ → AState → List Waypoint
  | 0, _ => []
  | fuel + 1, st =>
      match popMin st.open_set with
      | none => []
      | some (e, rest) =>
          let current := e.2
          if current.row = target.row ∧ current.col = target.col then
            reconstruct_path st.came current start (cellCount grid + 1)
          else
            astarLoop grid config target start fuel
              (neighborDirs.foldl (relaxNeighbor grid config target current)
                { st with open_set := rest })

/-- Fuel for the A* loop; proved sufficient below (the loop performs at most
`cellCount² + 1` iterations when `coverage_width > 0`). -/
def astarFuel (grid : Grid) : ℕ := cellCount grid * cellCount grid + 2

/-- `find_path_around_obstacles` from `planner.py`. -/
def find_path_around_obstacles (grid : Grid) (start_x start_y : ℚ)
    (target_cell : Cell) (config : WallConfig) : List Waypoint :=
  match find_nearest_cell grid start_x start_y with
  | none => []
  | some start_cell =>
      if start_cell.blocked then []
      else
        astarLoop grid config target_cell start_cell (astarFuel grid)
          { open_set := [(heuristic target_cell start_cell, start_cell)],
            came := fun _ => none,
            g := fun p => if p = (start_cell.row, start_cell.col) then some 0 else none }

/-! ## Sweep planner (boustrophedon controller) -/

/-- The column the sweep navigates to before painting a segment:
`target_cell = grid[row][seg_start_col]`, i.e. always the left end of the
`(seg_start_col, seg_end_col)` pair, whatever the sweep direction. -/
def segNavTargetCol (seg : ℕ × ℕ) : ℕ := seg.1

/-- Painting traversal order within a segment: ascending for `direction == 1`
(`range(s, e+1)`), descending otherwise (`range(e, s-1, -1)`). -/
def segCols (direction : ℤ) (seg : ℕ × ℕ) : List ℕ :=
  if direction = 1 then List.range' seg.1 (seg.2 + 1 - seg.1)
  else (List.range' seg.1 (seg.2 + 1 - seg.1)).reverse

/-- The per-cell body of the segment painting loop. -/
def paintCell (config : WallConfig) (row : ℕ) (st : Grid × List Waypoint)
    (col : ℕ) : Grid × List Waypoint :=
  let cell := cellAt st.1 row col
  if !cell.blocked && !cell.visited then
    let action :=
      match st.2.getLast? with
      | some last =>
          if is_adjacent last.x last.y cell.x cell.y config.coverage_width
          then "paint" else "move"
      | none => "move"
    (setVisited st.1 row col, st.2 ++ [⟨cell.x, cell.y, action⟩])
  else st

/-- One segment of `paint_with_obstacle_avoidance`: navigate to the segment's
`seg_start_col` cell when the last waypoint is not adjacent to it, then paint
the segment's cells in traversal order. -/
def processSegment (config : WallConfig) (row : ℕ) (direction : ℤ)
    (st : Grid × List Waypoint) (seg : ℕ × ℕ) : Grid × List Waypoint :=
  let wps :=
    match st.2.getLast? with
    | none => st.2
    | some last =>
        let target_cell := cellAt st.1 row (segNavTargetCol seg)
        if !is_adjacent last.x last.y target_cell.x target_cell.y config.coverage_width then
          st.2 ++ find_path_around_obstacles st.1 last.x last.y target_cell config
        else st.2
  (segCols direction seg).foldl (paintCell config row) (st.1, wps)

/-- The `while row < num_rows:` loop; the fuel is `num_rows - row`, which the
entry point passes as `len(grid)`. -/
def paintLoop (config : WallConfig) :
    ℕ → Grid → ℕ → ℤ → List Waypoint → Grid × List Waypoint
  | 0, grid, _, _, wps => (grid, wps)
  | n + 1, grid, row, direction, wps =>
      let segments := get_row_segments grid row
      if segments = [] then paintLoop config n grid (row + 1) (-direction) wps
      else
        let segments := if direction = -1 then segments.reverse else segments
        let st := segments.foldl (processSegment config row direction) (grid, wps)
        paintLoop config n st.1 (row + 1) (-direction) st.2

/-- Row-major list of the `(row, col)` positions of a grid. -/
def gridPositions (grid : Grid) : List (ℕ × ℕ) :=
  ((List.range grid.length).map (fun r =>
    (List.range (grid.getD r []).length).map (fun c => (r, c)))).flatten

/-- The per-cell body of `fill_isolated_regions`: if the cell is unblocked
and unvisited, navigate to it from the last waypoint (when one exists) and
paint it. -/
def fillStep (config : WallConfig) (st : Grid × List Waypoint) (p : ℕ × ℕ) :
    Grid × List Waypoint :=
  let cell := cellAt st.1 p.1 p.2
  if !cell.blocked && !cell.visited then
    let wps2 :=
      match st.2.getLast? with
      | none => st.2
      | some last =>
          st.2 ++ find_path_around_obstacles st.1 last.x last.y cell config
    (setVisited st.1 p.1 p.2, wps2 ++ [⟨cell.x, cell.y, "paint"⟩])
  else st

/-- `fill_isolated_regions` from `planner.py`: visit every still-unvisited
unblocked cell in row-major order, navigating to it from the last waypoint
when one exists, and paint it. -/
def fill_isolated_regions (grid : Grid) (wps : List Waypoint)
    (config : WallConfig) : Grid × List Waypoint :=
  (gridPositions grid).foldl (fillStep config) (grid, wps)

/-- `paint_with_obstacle_avoidance` from `planner.py`. -/
def paint_with_obstacle_avoidance (grid : Grid) (config : WallConfig) :
    List Waypoint :=
  if grid = [] ∨ grid.headI = [] then []
  else
    let st := paintLoop config grid.length grid 0 1 []
    (fill_isolated_regions st.1 st.2 config).2

/-- `generate_trajectory` from `planner.py`: the planner entry point. -/
def generate_trajectory (config : WallConfig) : List Waypoint :=
  remove_consecutive_duplicates
    (paint_with_obstacle_avoidance (mark_obstacles (create_grid config) config) config)

/-! ## Grid paths

Specification-side notions used to state the navigation claims: the
4-connected step relation on `(row, col)` positions, walks through unblocked
cells, and reachability. -/

/-- One 4-connected grid step (`row ± 1` or `col ± 1`). -/
def AdjStep (p q : ℕ × ℕ) : Prop :=
  (p.1 = q.1 ∧ (p.2 + 1 = q.2 ∨ q.2 + 1 = p.2)) ∨
  (p.2 = q.2 ∧ (p.1 + 1 = q.1 ∨ q.1 + 1 = p.1))

instance : DecidableRel AdjStep := fun p q => by
  unfold AdjStep; infer_instance

/-- Position inside the grid (bounds as the A* loop checks them) whose cell
is not blocked. -/
def UnbAt (grid : Grid) (p : ℕ × ℕ) : Prop :=
  p.1 < grid.length ∧ p.2 < grid.headI.length ∧ (cellAt grid p.1 p.2).blocked = false

instance (grid : Grid) : DecidablePred (UnbAt grid) := fun p => by
  unfold UnbAt; infer_instance

/-- `l` is a walk from `s` to `t` through unblocked cells: consecutive
positions of `s :: l` are one grid step apart, every position is unblocked,
and the walk ends at `t`.  `l = []` is the trivial walk from `s` to `s`. -/
def WalkTo (grid : Grid) (s : ℕ × ℕ) (l : List (ℕ × ℕ)) (t : ℕ × ℕ) : Prop :=
  UnbAt grid s ∧ List.Chain AdjStep s l ∧ (∀ p ∈ l, UnbAt grid p) ∧ l.getLastD s = t

/-- Some walk through unblocked cells joins `s` to `t`. -/
def Reach (grid : Grid) (s t : ℕ × ℕ) : Prop :=
  ∃ l, WalkTo grid s l t

/-- A walk between distinct endpoints is nonempty. -/
theorem WalkTo.ne_nil {grid : Grid} {s t : ℕ × ℕ} {l : List (ℕ × ℕ)}
    (h : WalkTo grid s l t) (hst : s ≠ t) : l ≠ [] := by
  intro hl
  subst hl
  exact hst h.2.2.2

/-- Intermediate-row property of a chain of grid steps: a walk whose row
starts at or below `r` and ends at or above `r` passes through row `r`. -/
theorem chain_crosses_row {s : ℕ × ℕ} {l : List (ℕ × ℕ)} (h : List.Chain AdjStep s l)
    (r : ℕ) (hs : s.1 ≤ r) (ht : r ≤ (l.getLastD s).1) :
    ∃ p ∈ s :: l, p.1 = r := by
  induction l generalizing s with
  | nil =>
      simp only [List.getLastD_nil] at ht
      exact ⟨s, by simp, by omega⟩
  | cons q l ih =>
      rcases List.chain_cons.mp h with ⟨hsq, hq⟩
      rw [List.getLastD_cons] at ht
      by_cases hqr : q.1 ≤ r
      · rcases ih hq hqr ht with ⟨p, hp, hpr⟩
        exact ⟨p, List.mem_cons_of_mem s hp, hpr⟩
      · push_neg at hqr
        unfold AdjStep at hsq
        have hq1 : q.1 ≤ s.1 + 1 := by
          rcases hsq with ⟨h1, _⟩ | ⟨_, h1 | h1⟩ <;> omega
        exact ⟨s, by simp, by omega⟩

/-! ## Concrete configurations used to settle the claims -/

/-- A plain 3-column, 2-row wall with no obstacles. -/
def cfgPlain : WallConfig := ⟨3, 2, 1, []⟩

/-- 3×5 wall whose obstacles block cells (1,1), (1,2) and the whole of row 3,
splitting the unblocked cells into two disconnected regions (rows 0–2 and
row 4). -/
def cfgSplit : WallConfig :=
  ⟨3, 5, 1, [⟨12/10, 12/10, 16/10, 6/10⟩, ⟨2/10, 32/10, 26/10, 6/10⟩]⟩

def gridSplit : Grid := mark_obstacles (create_grid cfgSplit) cfgSplit

/-- Degenerate wall smaller than half the coverage width in both directions. -/
def cfgTiny : WallConfig := ⟨1/20, 1/20, 3/20, []⟩

/-- 1×1 wall: a single unblocked cell. -/
def cfgUnit : WallConfig := ⟨1, 1, 1, []⟩

def gridUnit : Grid := mark_obstacles (create_grid cfgUnit) cfgUnit

/-- 3-column single-row wall whose obstacle blocks only cell (0,0). -/
def cfgCorner : WallConfig := ⟨3, 1, 1, [⟨0, 0, 4/10, 4/10⟩]⟩

def gridCorner : Grid := mark_obstacles (create_grid cfgCorner) cfgCorner

/-- Modelled from the spec: "the segment's first cell in traversal order" —
the right end of the segment when the sweep direction is `-1`, the left end
otherwise (spec §4.4 steps 3–4). -/
def segTraversalFirstCol (direction : ℤ) (seg : ℕ × ℕ) : ℕ :=
  if direction = -1 then seg.2 else seg.1

set_option maxRecDepth 40000

/-- C1: the claim fails on the code.  For the obstacle-free 3×2-cell wall
`cfgPlain`, the output of `generate_trajectory` contains the center
`(1/2, 1/2)` of grid cell (0,0) twice, not exactly once: on the odd row the
sweep navigates to the segment's left end (through already painted cells)
before painting the row from its right end. -/
theorem c1_no_obstacles_cell_center_repeated :
    cfgPlain.obstacles = [] ∧
    ((generate_trajectory cfgPlain).map (fun w => (w.x, w.y))).count (1/2, 1/2) = 2 :=
  ⟨rfl, by decide⟩

/-- C4: the claim fails on the code.  On row 1 (direction `-1`) of the
obstacle-free wall `cfgPlain`, the single segment is `(0, 2)`; the traversal
starts at column 2, but the sweep's navigation target is
`grid[row][seg_start_col]`, column 0.  The full output shows the effect: the
robot walks back to `(1/2, 3/2)` (left end) and then repaints the second row
from its right end, emitting three "move" detour waypoints. -/
theorem c4_navigation_targets_left_end :
    get_row_segments (mark_obstacles (create_grid cfgPlain) cfgPlain) 1 = [(0, 2)] ∧
    segNavTargetCol (0, 2) = 0 ∧
    segTraversalFirstCol (-1) (0, 2) = 2 ∧
    generate_trajectory cfgPlain =
      [⟨1/2, 1/2, "move"⟩, ⟨3/2, 1/2, "paint"⟩, ⟨5/2, 1/2, "paint"⟩,
       ⟨3/2, 1/2, "move"⟩, ⟨1/2, 1/2, "move"⟩, ⟨1/2, 3/2, "move"⟩,
       ⟨5/2, 3/2, "move"⟩, ⟨3/2, 3/2, "paint"⟩, ⟨1/2, 3/2, "paint"⟩] :=
  ⟨by decide, rfl, rfl, by decide⟩

/-- C2 counterexample: `cfgSplit`'s obstacles split the unblocked cells into
two regions that are not mutually reachable (rows 0–2 and row 4), its cell
(0,0) is unblocked with center `(1/2, 1/2)`, yet that center appears twice in
the output of `generate_trajectory`, not exactly once. -/
theorem c2_counterexample_center_repeated :
    (∃ p q, UnbAt gridSplit p ∧ UnbAt gridSplit q ∧ ¬ Reach gridSplit p q) ∧
    (cellAt gridSplit 0 0).blocked = false ∧
    (cellAt gridSplit 0 0).x = 1/2 ∧ (cellAt gridSplit 0 0).y = 1/2 ∧
    ((generate_trajectory cfgSplit).map (fun w => (w.x, w.y))).count (1/2, 1/2) = 2 := by
  refine ⟨⟨(0, 0), (4, 0), by decide, by decide, ?_⟩, by decide, by decide, by decide, by decide⟩
  intro h
  obtain ⟨l, hw⟩ := h
  unfold WalkTo at hw
  obtain ⟨hunb, hchain, hall, hlast⟩ := hw
  obtain ⟨p, hp, hp3⟩ := chain_crosses_row hchain 3 (by decide)
    (by rw [hlast]; decide)
  rcases List.mem_cons.mp hp with rfl | hpl
  · exact absurd hp3 (by decide)
  · have h := hall p hpl
    unfold UnbAt at h
    obtain ⟨hr, hc, hbl⟩ := h
    obtain ⟨pr, pc⟩ := p
    simp only at hp3
    subst hp3
    have hc3 : pc < 3 := by
      have : gridSplit.headI.length = 3 := by decide
      omega
    interval_cases pc <;> exact absurd hbl (by decide)

/-- C3 counterexample: for `cfgCorner` the grid cell nearest the start
position `(1/2, 1/2)` is the blocked cell (0,0), so the Navigator returns
the empty sequence — yet the nearest unblocked cell (0,1) exists and every
walk from it to the (unblocked) target cell (0,2) is nonempty, so the
returned sequence is not a path between them as the claim states. -/
theorem c3_counterexample_blocked_nearest :
    find_path_around_obstacles gridCorner (1/2) (1/2) (cellAt gridCorner 0 2) cfgCorner = [] ∧
    find_nearest_cell gridCorner (1/2) (1/2) = some (cellAt gridCorner 0 0) ∧
    (cellAt gridCorner 0 0).blocked = true ∧
    (cellAt gridCorner 0 2).blocked = false ∧
    UnbAt gridCorner (0, 1) ∧
    WalkTo gridCorner (0, 1) [(0, 2)] (0, 2) ∧
    (∀ l, WalkTo gridCorner (0, 1) l (0, 2) → l ≠ []) := by
  refine ⟨by decide, by decide, by decide, by decide, by decide, ?_, ?_⟩
  · unfold WalkTo
    refine ⟨by decide, ?_, by decide, by decide⟩
    exact List.Chain.cons (by decide) List.Chain.nil
  · intro l hw
    exact WalkTo.ne_nil hw (by decide)

/-- C5 counterexample: for the degenerate wall `cfgTiny` (both dimensions
below half the coverage width) the single output waypoint lies at
`(3/40, 3/40)`, outside `[0, width] × [0, height]` since `width = 1/20`. -/
theorem c5_counterexample_degenerate_exceeds_wall :
    generate_trajectory cfgTiny = [⟨3/40, 3/40, "move"⟩] ∧
    ¬ ((3 : ℚ)/40 ≤ cfgTiny.width) :=
  ⟨by decide, by decide⟩

/-- C7 counterexample: on the 1×1 wall `cfgUnit`, with the start position at
the unique cell's center and that same cell as target, the Navigator returns
the empty sequence although the nearest cell is unblocked and the target is
(trivially) reachable — a third empty case the claim's "exactly when" omits. -/
theorem c7_counterexample_start_is_target :
    find_path_around_obstacles gridUnit (1/2) (1/2) (cellAt gridUnit 0 0) cfgUnit = [] ∧
    find_nearest_cell gridUnit (1/2) (1/2) = some (cellAt gridUnit 0 0) ∧
    (cellAt gridUnit 0 0).blocked = false ∧
    Reach gridUnit (0, 0) (0, 0) := by
  refine ⟨by decide, by decide, by decide, ⟨[], ?_⟩⟩
  unfold WalkTo
  exact ⟨by decide, List.Chain.nil, by simp, rfl⟩

/-- Positions at least the compaction tolerance apart in some coordinate. -/
def farApart (a b : Waypoint) : Prop :=
  |b.x - a.x| > 1/1000 ∨ |b.y - a.y| > 1/1000

/-- Modelled from the spec: scan the sequence once, keep the first waypoint
unconditionally, keep each subsequent waypoint iff it moved more than the
tolerance in x or y relative to the last kept waypoint. -/
def compactSpec (ws : List Waypoint) : List Waypoint :=
  match ws with
  | [] => []
  | w :: rest =>
      (rest.foldl (fun (acc : List Waypoint × Waypoint) w' =>
        if |w'.x - acc.2.x| > 1/1000 ∨ |w'.y - acc.2.y| > 1/1000
        then (acc.1 ++ [w'], w') else acc) ([w], w)).1

theorem rcdAux_sublist (prev : Waypoint) (ws : List Waypoint) :
    (rcdAux prev ws).Sublist ws := by
  induction ws generalizing prev with
  | nil => simp [rcdAux]
  | cons w rest ih =>
      rw [rcdAux]
      split
      · exact (ih w).cons₂ w
      · exact (ih prev).cons w

theorem rcdAux_chain (prev : Waypoint) (ws : List Waypoint) :
    List.Chain farApart prev (rcdAux prev ws) := by
  induction ws generalizing prev with
  | nil => exact List.Chain.nil
  | cons w rest ih =>
      rw [rcdAux]
      split
      · exact List.Chain.cons (by assumption) (ih w)
      · exact ih prev

theorem compactSpec_foldl (acc : List Waypoint) (prev : Waypoint) (rest : List Waypoint) :
    (rest.foldl (fun (acc : List Waypoint × Waypoint) w' =>
        if |w'.x - acc.2.x| > 1/1000 ∨ |w'.y - acc.2.y| > 1/1000
        then (acc.1 ++ [w'], w') else acc) (acc, prev)).1 = acc ++ rcdAux prev rest := by
  induction rest generalizing acc prev with
  | nil => simp [rcdAux]
  | cons w rest ih =>
      rw [List.foldl_cons, rcdAux]
      split
      · rw [ih]
        simp
      · exact ih acc prev

/-- C6: the Compactor keeps the first waypoint, keeps each later waypoint iff
it moved more than 0.001 in x or y relative to the last kept one (it equals
the specification's scan), its output is an order-preserving subsequence of
its input, and consecutive output waypoints — in particular consecutive
waypoints of any `generate_trajectory` output — always differ by more than
the tolerance in x or y. -/
theorem c6_compactor_characterization :
    ∀ (ws : List Waypoint) (config : WallConfig),
      (remove_consecutive_duplicates ws).head? = ws.head? ∧
      remove_consecutive_duplicates ws = compactSpec ws ∧
      (remove_consecutive_duplicates ws).Sublist ws ∧
      (remove_consecutive_duplicates ws).Chain' farApart ∧
      (generate_trajectory config).Chain' farApart := by
  have key : ∀ ws : List Waypoint,
      (remove_consecutive_duplicates ws).head? = ws.head? ∧
      remove_consecutive_duplicates ws = compactSpec ws ∧
      (remove_consecutive_duplicates ws).Sublist ws ∧
      (remove_consecutive_duplicates ws).Chain' farApart := by
    intro ws
    cases ws with
    | nil => simp [remove_consecutive_duplicates, compactSpec]
    | cons w rest =>
        refine ⟨rfl, ?_, (rcdAux_sublist w rest).cons₂ w, ?_⟩
        · rw [remove_consecutive_duplicates, compactSpec, compactSpec_foldl]
          simp
        · rw [remove_consecutive_duplicates]
          exact rcdAux_chain w rest
  intro ws config
  exact ⟨(key ws).1, (key ws).2.1, (key ws).2.2.1, (key ws).2.2.2,
    (key (paint_with_obstacle_avoidance
      (mark_obstacles (create_grid config) config) config)).2.2.2⟩

theorem getD_map_range {α : Type} (f : ℕ → α) (n r : ℕ) (d : α) (h : r < n) :
    (((List.range n).map f).getD r d) = f r := by
  rw [List.getD_eq_getElem?_getD, List.getElem?_map, List.getElem?_range h]
  rfl

theorem cellAt_create_grid (config : WallConfig) {r c : ℕ}
    (hr : r < num_rows config) (hc : c < num_cols config) :
    cellAt (create_grid config) r c =
      ⟨r, c, ((c : ℚ) + 1/2) * config.coverage_width,
        ((r : ℚ) + 1/2) * config.coverage_width, false, false⟩ := by
  rw [cellAt, create_grid, getD_map_range _ _ _ _ hr, getD_map_range _ _ _ _ hc]

theorem cellAt_out_row {grid : Grid} {r c : ℕ} (h : ¬ r < grid.length) :
    cellAt grid r c = default := by
  rw [cellAt, List.getD_eq_getElem?_getD grid, List.getElem?_eq_none (l := grid) (by omega)]
  rfl

theorem cellAt_out_col {grid : Grid} {r c : ℕ} (h : ¬ c < (grid.getD r []).length) :
    cellAt grid r c = default := by
  rw [cellAt, List.getD_eq_getElem?_getD (grid.getD r []),
    List.getElem?_eq_none (by omega)]
  rfl

theorem getD_map_row (f : Cell → Cell) (grid : Grid) (r : ℕ) :
    (grid.map (List.map f)).getD r [] = List.map f (grid.getD r []) := by
  rw [List.getD_eq_getElem?_getD, List.getD_eq_getElem?_getD, List.getElem?_map]
  cases grid[r]? <;> rfl

theorem cellAt_map (f : Cell → Cell) (grid : Grid) {r c : ℕ}
    (hc : c < (grid.getD r []).length) :
    cellAt (grid.map (List.map f)) r c = f (cellAt grid r c) := by
  rw [cellAt, cellAt, getD_map_row]
  cases h : (grid.getD r [])[c]? with
  | none => exact absurd (List.getElem?_eq_none_iff.mp h) (by omega)
  | some cell =>
      rw [List.getD_eq_getElem?_getD, List.getElem?_map, h,
        List.getD_eq_getElem?_getD, h]
      rfl

/-- C8: after `mark_obstacles` on the freshly built grid, a cell is blocked
iff some obstacle's bounding box inflated by `margin = 0.3 * coverage_width`
contains the cell's center with inclusive bounds; moreover marking never
clears an already-set blocked flag (later obstacles cannot unblock a cell). -/
theorem c8_blocked_iff_inflated_box (config : WallConfig) (r c : ℕ)
    (hr : r < num_rows config) (hc : c < num_cols config) :
    ((cellAt (mark_obstacles (create_grid config) config) r c).blocked = true ↔
      ∃ obs ∈ config.obstacles,
        obs.x - config.coverage_width * (3/10) ≤ ((c : ℚ) + 1/2) * config.coverage_width ∧
        ((c : ℚ) + 1/2) * config.coverage_width ≤ obs.x + obs.width + config.coverage_width * (3/10) ∧
        obs.y - config.coverage_width * (3/10) ≤ ((r : ℚ) + 1/2) * config.coverage_width ∧
        ((r : ℚ) + 1/2) * config.coverage_width ≤ obs.y + obs.height + config.coverage_width * (3/10)) ∧
    ∀ (grid : Grid), (cellAt grid r c).blocked = true →
      (cellAt (mark_obstacles grid config) r c).blocked = true := by
  constructor
  · have hrow : ((create_grid config).getD r []).length = num_cols config := by
      rw [create_grid, getD_map_range _ _ _ _ hr]
      simp
    rw [mark_obstacles, cellAt_map _ _ (by rw [hrow]; exact hc), cellAt_create_grid config hr hc]
    simp only [Bool.false_or]
    split
    · rename_i h
      simp only [List.any_eq_true, obstacleCovers, Bool.and_eq_true,
        decide_eq_true_eq] at h
      constructor
      · intro _
        obtain ⟨obs, hobs, ⟨⟨h1, h2⟩, h3⟩, h4⟩ := h
        exact ⟨obs, hobs, h1, h2, h3, h4⟩
      · intro _
        rfl
    · rename_i h
      simp only [List.any_eq_true, obstacleCovers, Bool.and_eq_true,
        decide_eq_true_eq] at h
      push_neg at h
      constructor
      · intro hfalse
        simp at hfalse
      · rintro ⟨obs, hobs, h1, h2, h3, h4⟩
        exact absurd h4 (not_le.mpr (h obs hobs ⟨⟨h1, h2⟩, h3⟩))
  · intro grid hb
    by_cases hcb : c < (grid.getD r []).length
    · rw [mark_obstacles, cellAt_map _ _ hcb]
      simp [hb]
    · rw [cellAt_out_col hcb] at hb
      simp [default] at hb

/-- Modelled from the spec: the sweep direction used for row `r` — `+1` on
even rows, `-1` on odd rows. -/
def sweepDir (r : ℕ) : ℤ := if r % 2 = 0 then 1 else -1

theorem sweepDir_neg (r : ℕ) : -(sweepDir r) = sweepDir (r + 1) := by
  unfold sweepDir
  by_cases h : r % 2 = 0
  · rw [if_pos h, if_neg (by omega)]
  · rw [if_neg h, if_pos (by omega)]
    decide

theorem paintLoop_step (config : WallConfig) (n row : ℕ) (direction : ℤ)
    (grid : Grid) (wps : List Waypoint) :
    ∃ g w, paintLoop config (n + 1) grid row direction wps =
        paintLoop config n g (row + 1) (-direction) w ∧
      (get_row_segments grid row = [] → g = grid ∧ w = wps) := by
  by_cases hseg : get_row_segments grid row = []
  · refine ⟨grid, wps, ?_, fun _ => ⟨rfl, rfl⟩⟩
    conv_lhs => rw [paintLoop]
    simp only [hseg, if_pos]
  · refine ⟨((if direction = -1 then (get_row_segments grid row).reverse
        else get_row_segments grid row).foldl (processSegment config row direction)
        (grid, wps)).1,
      ((if direction = -1 then (get_row_segments grid row).reverse
        else get_row_segments grid row).foldl (processSegment config row direction)
        (grid, wps)).2, ?_, fun hc => absurd hc hseg⟩
    conv_lhs => rw [paintLoop]
    simp only [if_neg hseg]

theorem paintLoop_reaches (config : WallConfig) (grid : Grid) :
    ∀ r, r ≤ grid.length →
      ∃ g w, paintLoop config grid.length grid 0 1 [] =
        paintLoop config (grid.length - r) g r (sweepDir r) w := by
  intro r
  induction r with
  | zero =>
      intro _
      exact ⟨grid, [], by rw [Nat.sub_zero]; rfl⟩
  | succ r ih =>
      intro hr
      obtain ⟨g, w, heq⟩ := ih (by omega)
      have hfuel : grid.length - r = (grid.length - (r + 1)) + 1 := by omega
      rw [hfuel] at heq
      obtain ⟨g', w', hstep, _⟩ := paintLoop_step config (grid.length - (r + 1)) r (sweepDir r) g w
      exact ⟨g', w', by rw [heq, hstep, sweepDir_neg]⟩

/-- C9: the sweep direction flips on every row advance whether or not the row
produced segments — a segment-free row leaves the grid and waypoints
untouched and still flips — and consequently the sweep started at
`(row 0, +1)` processes each row `r` with direction `+1` for even `r` and
`-1` for odd `r`. -/
theorem c9_direction_alternates (config : WallConfig) (grid : Grid) (n row : ℕ)
    (direction : ℤ) (wps : List Waypoint) :
    (get_row_segments grid row = [] →
      paintLoop config (n + 1) grid row direction wps =
        paintLoop config n grid (row + 1) (-direction) wps) ∧
    (∃ g w, paintLoop config (n + 1) grid row direction wps =
        paintLoop config n g (row + 1) (-direction) w) ∧
    (∀ r, r ≤ grid.length →
      ∃ g w, paintLoop config grid.length grid 0 1 [] =
        paintLoop config (grid.length - r) g r (sweepDir r) w) := by
  refine ⟨?_, ?_, paintLoop_reaches config grid⟩
  · intro hseg
    obtain ⟨g, w, heq, hid⟩ := paintLoop_step config n row direction grid wps
    obtain ⟨rfl, rfl⟩ := hid hseg
    exact heq
  · obtain ⟨g, w, heq, _⟩ := paintLoop_step config n row direction grid wps
    exact ⟨g, w, heq⟩

/-- Witness for `c9_direction_alternates`: row 3 of `gridSplit` is fully
blocked (zero segments), and the sweep reaches row 4 with direction `+1`. -/
theorem c9_direction_alternates_witness :
    (get_row_segments gridSplit 3 = [] →
      paintLoop cfgSplit (1 + 1) gridSplit 3 (-1) [] =
        paintLoop cfgSplit 1 gridSplit (3 + 1) (-(-1)) []) ∧
    (∃ g w, paintLoop cfgSplit (1 + 1) gridSplit 3 (-1) [] =
        paintLoop cfgSplit 1 g (3 + 1) (-(-1)) w) ∧
    (∀ r, r ≤ gridSplit.length →
      ∃ g w, paintLoop cfgSplit gridSplit.length gridSplit 0 1 [] =
        paintLoop cfgSplit (gridSplit.length - r) g r (sweepDir r) w) :=
  c9_direction_alternates cfgSplit gridSplit 1 3 (-1) []

/-- Witness for `c8_blocked_iff_inflated_box`: cell (1,1) of `cfgSplit` is
blocked because the first obstacle's inflated box contains its center. -/
theorem c8_blocked_iff_inflated_box_witness :
    (cellAt (mark_obstacles (create_grid cfgSplit) cfgSplit) 1 1).blocked = true :=
  ((c8_blocked_iff_inflated_box cfgSplit 1 1 (by decide) (by decide)).1).mpr
    ⟨⟨12/10, 12/10, 16/10, 6/10⟩, by decide, by decide, by decide, by decide, by decide⟩

/-! ## Structural lemmas for the pipeline invariants -/

/-- `(r, c)` is a valid index pair of the grid. -/
def InB (grid : Grid) (r c : ℕ) : Prop :=
  r < grid.length ∧ c < (grid.getD r []).length

/-- Rectangular grid: every row has the length of row 0 (the length the A*
bounds check uses). -/
def Rect (grid : Grid) : Prop :=
  ∀ r, r < grid.length → (grid.getD r []).length = grid.headI.length

/-- `cell` really is an unblocked cell of the grid. -/
def GoodCell (grid : Grid) (cell : Cell) : Prop :=
  ∃ r c, InB grid r c ∧ cellAt grid r c = cell ∧ cell.blocked = false

/-- The waypoint sits at the center of an unblocked cell of `G`. -/
def WpGood (G : Grid) (wp : Waypoint) : Prop :=
  ∃ r c, InB G r c ∧ (cellAt G r c).blocked = false ∧
    wp.x = (cellAt G r c).x ∧ wp.y = (cellAt G r c).y

theorem getD_default_of_le {α : Type} {l : List α} {n : ℕ} (d : α) (h : l.length ≤ n) :
    l.getD n d = d := by
  rw [List.getD_eq_getElem?_getD, List.getElem?_eq_none h]
  rfl

theorem listModify_length (f : α → α) (n : ℕ) (l : List α) :
    (listModify f n l).length = l.length := by
  induction l generalizing n with
  | nil => cases n <;> rfl
  | cons a as ih =>
      cases n with
      | zero => rfl
      | succ n => simp [listModify, ih]

theorem listModify_getD_ne (f : α → α) (l : List α) (d : α) :
    ∀ {n m : ℕ}, m ≠ n → (listModify f n l).getD m d = l.getD m d := by
  induction l with
  | nil => intro n m _; cases n <;> rfl
  | cons a as ih =>
      intro n m h
      cases n with
      | zero =>
          cases m with
          | zero => exact absurd rfl h
          | succ m => rfl
      | succ n =>
          cases m with
          | zero => rfl
          | succ m =>
              rw [listModify, List.getD_cons_succ, List.getD_cons_succ]
              exact ih (by omega)

theorem listModify_getD_self (f : α → α) (l : List α) (d : α) :
    ∀ {n : ℕ}, n < l.length → (listModify f n l).getD n d = f (l.getD n d) := by
  induction l with
  | nil => intro n h; simp at h
  | cons a as ih =>
      intro n h
      cases n with
      | zero => rfl
      | succ n =>
          rw [listModify, List.getD_cons_succ, List.getD_cons_succ]
          exact ih (by simpa using h)

theorem setVisited_length (grid : Grid) (r c : ℕ) :
    (setVisited grid r c).length = grid.length :=
  listModify_length _ _ _

theorem setVisited_row_length (grid : Grid) (r c r' : ℕ) :
    ((setVisited grid r c).getD r' []).length = (grid.getD r' []).length := by
  by_cases h : r' = r
  · subst h
    by_cases hr : r' < grid.length
    · rw [setVisited, listModify_getD_self _ _ _ hr, listModify_length]
    · rw [getD_default_of_le [] (by rw [setVisited_length]; omega),
        getD_default_of_le [] (by omega)]
  · rw [setVisited, listModify_getD_ne _ _ _ h]

theorem cellAt_setVisited_ne (grid : Grid) {r c r' c' : ℕ} (h : ¬(r' = r ∧ c' = c)) :
    cellAt (setVisited grid r c) r' c' = cellAt grid r' c' := by
  by_cases hr : r' = r
  · subst hr
    have hc : c' ≠ c := fun hc => h ⟨rfl, hc⟩
    by_cases hrb : r' < grid.length
    · rw [cellAt, cellAt, setVisited, listModify_getD_self _ _ _ hrb,
        listModify_getD_ne _ _ _ hc]
    · rw [cellAt, cellAt, getD_default_of_le [] (by rw [setVisited_length]; omega),
        getD_default_of_le [] (by omega)]
  · rw [cellAt, cellAt, setVisited, listModify_getD_ne _ _ _ hr]

theorem cellAt_setVisited_self (grid : Grid) {r c : ℕ} (h : InB grid r c) :
    cellAt (setVisited grid r c) r c =
      { cellAt grid r c with visited := true } := by
  obtain ⟨hr, hc⟩ := h
  rw [cellAt, cellAt, setVisited, listModify_getD_self _ _ _ hr,
    listModify_getD_self _ _ _ hc]

/-- `setVisited` changes at most the `visited` field of one cell. -/
theorem cellAt_setVisited_fields (grid : Grid) (r c r' c' : ℕ) :
    cellAt (setVisited grid r c) r' c' =
      { cellAt grid r' c' with
          visited := (cellAt (setVisited grid r c) r' c').visited } := by
  by_cases h : r' = r ∧ c' = c
  · obtain ⟨rfl, rfl⟩ := h
    by_cases hb : InB grid r' c'
    · rw [cellAt_setVisited_self grid hb]
    · have hor : ¬ r' < grid.length ∨ ¬ c' < (grid.getD r' []).length := by
        by_contra hcon
        push_neg at hcon
        exact hb ⟨hcon.1, hcon.2⟩
      rcases hor with hr | hc
      · rw [cellAt, cellAt, getD_default_of_le [] (by rw [setVisited_length]; omega),
          getD_default_of_le [] (by omega)]
      · rw [cellAt, cellAt, getD_default_of_le default
          (by rw [setVisited_row_length]; omega),
          getD_default_of_le default (by omega)]
  · rw [cellAt_setVisited_ne grid h]

/-- `setVisited` only raises the `visited` flag. -/
theorem cellAt_setVisited_visited_mono (grid : Grid) {r c r' c' : ℕ}
    (h : (cellAt grid r' c').visited = true) :
    (cellAt (setVisited grid r c) r' c').visited = true := by
  by_cases hb : r' = r ∧ c' = c
  · obtain ⟨rfl, rfl⟩ := hb
    by_cases hin : InB grid r' c'
    · rw [cellAt_setVisited_self grid hin]
    · have hor : ¬ r' < grid.length ∨ ¬ c' < (grid.getD r' []).length := by
        by_contra hcon
        push_neg at hcon
        exact hin ⟨hcon.1, hcon.2⟩
      rcases hor with hr | hc
      · rw [@cellAt_out_row (setVisited grid r' c') r' c'
          (by rw [setVisited_length]; omega)]
        rwa [@cellAt_out_row grid r' c' (by omega)] at h
      · rw [@cellAt_out_col (setVisited grid r' c') r' c'
          (by rw [setVisited_row_length]; omega)]
        rwa [@cellAt_out_col grid r' c' (by omega)] at h
  · rwa [cellAt_setVisited_ne grid hb]

/-! ## The Navigator emits only unblocked cell centers -/

theorem popMinAux_fst_mem (best : ℚ × Cell) (l : List (ℚ × Cell)) :
    (popMinAux best l).1 ∈ best :: l := by
  induction l generalizing best with
  | nil => simp [popMinAux]
  | cons e rest ih =>
      rw [popMinAux]
      split
      · rcases List.mem_cons.mp (ih e) with h | h
        · simp [h]
        · simp [List.mem_cons_of_mem _ (List.mem_cons_of_mem _ h)]
      · rcases List.mem_cons.mp (ih best) with h | h
        · simp [h]
        · simp [List.mem_cons_of_mem _ (List.mem_cons_of_mem _ h)]

theorem popMinAux_snd_subset (best : ℚ × Cell) (l : List (ℚ × Cell)) :
    ∀ x ∈ (popMinAux best l).2, x ∈ best :: l := by
  induction l generalizing best with
  | nil => simp [popMinAux]
  | cons e rest ih =>
      intro x hx
      rw [popMinAux] at hx
      split at hx
      · rcases List.mem_cons.mp hx with h | h
        · simp [h]
        · rcases List.mem_cons.mp (ih e x h) with h' | h'
          · simp [h']
          · simp [List.mem_cons_of_mem _ (List.mem_cons_of_mem _ h')]
      · rcases List.mem_cons.mp hx with h | h
        · simp [h]
        · rcases List.mem_cons.mp (ih best x h) with h' | h'
          · simp [h']
          · simp [List.mem_cons_of_mem _ (List.mem_cons_of_mem _ h')]

theorem popMin_mem {l : List (ℚ × Cell)} {e : ℚ × Cell} {rest : List (ℚ × Cell)}
    (h : popMin l = some (e, rest)) : e ∈ l ∧ ∀ x ∈ rest, x ∈ l := by
  cases l with
  | nil => simp [popMin] at h
  | cons a as =>
      rw [popMin] at h
      have h1 := congrArg Prod.fst (Option.some.inj h)
      have h2 := congrArg Prod.snd (Option.some.inj h)
      simp only at h1 h2
      constructor
      · rw [← h1]
        exact popMinAux_fst_mem a as
      · intro x hx
        rw [← h2] at hx
        exact popMinAux_snd_subset a as x hx

/-- Cells of the grid's flattened list are cells at valid indices. -/
theorem mem_flatten_cellAt {grid : Grid} {cell : Cell} (h : cell ∈ grid.flatten) :
    ∃ r c, InB grid r c ∧ cellAt grid r c = cell := by
  rw [List.mem_flatten] at h
  obtain ⟨row, hrow, hcell⟩ := h
  obtain ⟨r, hr, hrget⟩ := List.mem_iff_getElem.mp hrow
  obtain ⟨c, hc, hcget⟩ := List.mem_iff_getElem.mp hcell
  have hrowD : grid.getD r [] = row := by
    rw [List.getD_eq_getElem?_getD, List.getElem?_eq_getElem hr, Option.getD_some, hrget]
  refine ⟨r, c, ⟨hr, ?_⟩, ?_⟩
  · rw [hrowD]
    exact hc
  · rw [cellAt, hrowD, List.getD_eq_getElem?_getD, List.getElem?_eq_getElem hc,
      Option.getD_some, hcget]

theorem nearStep_fold_mem (x y : ℚ) :
    ∀ (l : List Cell) (acc : Option (ℚ × Cell)) (d : ℚ) (c0 : Cell),
      l.foldl (nearStep x y) acc = some (d, c0) →
      (∃ d0, acc = some (d0, c0)) ∨ c0 ∈ l := by
  intro l
  induction l with
  | nil =>
      intro acc d c0 h
      exact Or.inl ⟨d, h⟩
  | cons cell rest ih =>
      intro acc d c0 h
      rw [List.foldl_cons] at h
      rcases ih (nearStep x y acc cell) d c0 h with ⟨d0, hd0⟩ | hmem
      · rw [nearStep.eq_def] at hd0
        cases acc with
        | none =>
            simp only [Option.some.injEq, Prod.mk.injEq] at hd0
            exact Or.inr (by simp [hd0.2.symm])
        | some best =>
            simp only at hd0
            split at hd0
            · simp only [Option.some.injEq, Prod.mk.injEq] at hd0
              exact Or.inr (by simp [hd0.2.symm])
            · exact Or.inl ⟨d0, hd0⟩
      · exact Or.inr (List.mem_cons_of_mem _ hmem)

/-- `find_nearest_cell` returns a cell of the grid. -/
theorem find_nearest_cell_mem {grid : Grid} {x y : ℚ} {cell : Cell}
    (h : find_nearest_cell grid x y = some cell) :
    ∃ r c, InB grid r c ∧ cellAt grid r c = cell := by
  rw [find_nearest_cell] at h
  split at h
  · exact Option.noConfusion h
  · rcases hf : grid.flatten.foldl (nearStep x y) none with _ | p
    · rw [hf] at h
      exact Option.noConfusion h
    · rw [hf] at h
      obtain ⟨d, c0⟩ := p
      have hc : c0 = cell := by simpa using h
      rcases nearStep_fold_mem x y grid.flatten none d c0 hf with ⟨d0, hd0⟩ | hmem
      · exact Option.noConfusion hd0
      · exact hc ▸ mem_flatten_cellAt hmem

/-- Invariant of the A* state: every open-set entry and every `came_from`
value is an unblocked cell of the grid. -/
def AGood (grid : Grid) (st : AState) : Prop :=
  (∀ e ∈ st.open_set, GoodCell grid e.2) ∧
  (∀ p c', st.came p = some c' → GoodCell grid c')

theorem relaxNeighbor_AGood {grid : Grid} (hrect : Rect grid)
    (config : WallConfig) (target current : Cell) {st : AState}
    (hst : AGood grid st) (hcur : GoodCell grid current) (d : ℤ × ℤ) :
    AGood grid (relaxNeighbor grid config target current st d) := by
  simp only [relaxNeighbor]
  split
  · exact hst
  · split
    · exact hst
    · split
      · exact hst
      · split
        · rename_i hrb hcb hbl _
          push_neg at hrb hcb
          have hginb : InB grid ((current.row : ℤ) + d.1).toNat ((current.col : ℤ) + d.2).toNat := by
            constructor
            · omega
            · rw [hrect _ (by omega)]
              omega
          constructor
          · intro e he
            rcases List.mem_cons.mp he with rfl | he
            · exact ⟨_, _, hginb, rfl, by simpa using hbl⟩
            · exact hst.1 e he
          · intro p c' hp
            simp only at hp
            by_cases hpk : p = ((cellAt grid ((current.row : ℤ) + d.1).toNat
                ((current.col : ℤ) + d.2).toNat).row,
                (cellAt grid ((current.row : ℤ) + d.1).toNat
                ((current.col : ℤ) + d.2).toNat).col)
            · rw [if_pos hpk] at hp
              exact (Option.some.inj hp) ▸ hcur
            · rw [if_neg hpk] at hp
              exact hst.2 p c' hp
        · exact hst

theorem foldl_relax_AGood {grid : Grid} (hrect : Rect grid)
    (config : WallConfig) (target current : Cell) :
    ∀ (l : List (ℤ × ℤ)) {st : AState}, AGood grid st → GoodCell grid current →
      AGood grid (l.foldl (relaxNeighbor grid config target current) st) := by
  intro l
  induction l with
  | nil => intro st h _; exact h
  | cons d rest ih =>
      intro st h hcur
      exact ih (relaxNeighbor_AGood hrect config target current h hcur d) hcur

theorem reconstructAux_centers {grid : Grid} {came : ℕ × ℕ → Option Cell}
    (hcame : ∀ p c', came p = some c' → GoodCell grid c') (start : Cell) :
    ∀ (fuel : ℕ) (current : Cell), GoodCell grid current →
      ∀ wp ∈ reconstructAux came start fuel current,
        wp.action = "move" ∧ ∃ cell, GoodCell grid cell ∧ wp.x = cell.x ∧ wp.y = cell.y := by
  intro fuel
  induction fuel with
  | zero => intro current _ wp hwp; simp [reconstructAux] at hwp
  | succ fuel ih =>
      intro current hcur wp hwp
      rw [reconstructAux] at hwp
      cases hc : came (current.row, current.col) with
      | none =>
          rw [hc] at hwp
          simp at hwp
      | some prev =>
          rw [hc] at hwp
          dsimp only at hwp
          by_cases hss : current.row = start.row ∧ current.col = start.col
          · rw [if_pos hss] at hwp
            exact ih prev (hcame _ _ hc) wp hwp
          · rw [if_neg hss] at hwp
            rcases List.mem_append.mp hwp with h | h
            · exact ih prev (hcame _ _ hc) wp h
            · rw [List.mem_singleton.mp h]
              exact ⟨rfl, current, hcur, rfl, rfl⟩

theorem astarLoop_centers {grid : Grid} (hrect : Rect grid)
    (config : WallConfig) (target start : Cell) :
    ∀ (fuel : ℕ) {st : AState}, AGood grid st →
      ∀ wp ∈ astarLoop grid config target start fuel st,
        wp.action = "move" ∧ ∃ cell, GoodCell grid cell ∧ wp.x = cell.x ∧ wp.y = cell.y := by
  intro fuel
  induction fuel with
  | zero => intro st _ wp hwp; simp [astarLoop] at hwp
  | succ fuel ih =>
      intro st hst wp hwp
      rw [astarLoop] at hwp
      cases hpop : popMin st.open_set with
      | none => rw [hpop] at hwp; simp at hwp
      | some pr =>
          obtain ⟨e, rest⟩ := pr
          rw [hpop] at hwp
          dsimp only at hwp
          have hmem := popMin_mem hpop
          have hecell : GoodCell grid e.2 := hst.1 e hmem.1
          by_cases htt : e.2.row = target.row ∧ e.2.col = target.col
          · rw [if_pos htt] at hwp
            exact reconstructAux_centers hst.2 start _ e.2 hecell wp hwp
          · rw [if_neg htt] at hwp
            refine ih ?_ wp hwp
            refine foldl_relax_AGood hrect config target e.2 neighborDirs ?_ hecell
            exact ⟨fun e' he' => hst.1 e' (hmem.2 e' he'), hst.2⟩

/-- Every waypoint the Navigator returns is a "move" at the center of an
unblocked cell of the (rectangular) grid it was given. -/
theorem find_path_centers {grid : Grid} (hrect : Rect grid) (sx sy : ℚ)
    (target : Cell) (config : WallConfig) :
    ∀ wp ∈ find_path_around_obstacles grid sx sy target config,
      wp.action = "move" ∧ ∃ cell, GoodCell grid cell ∧ wp.x = cell.x ∧ wp.y = cell.y := by
  intro wp hwp
  rw [find_path_around_obstacles] at hwp
  cases hn : find_nearest_cell grid sx sy with
  | none =>
      rw [hn] at hwp
      simp at hwp
  | some start_cell =>
      rw [hn] at hwp
      dsimp only at hwp
      by_cases hnb : start_cell.blocked = true
      · rw [if_pos hnb] at hwp
        simp at hwp
      · rw [if_neg hnb] at hwp
        have hgood : GoodCell grid start_cell := by
          obtain ⟨r, c, hin, hcell⟩ := find_nearest_cell_mem hn
          exact ⟨r, c, hin, hcell, by simpa using hnb⟩
        refine astarLoop_centers hrect config target start_cell _ ?_ wp hwp
        constructor
        · intro e he
          rw [List.mem_singleton.mp he]
          exact hgood
        · intro p c' hp
          exact Option.noConfusion hp

/-! ## The sweep and cleanup invariant -/

/-- `g` agrees with `G` except possibly on `visited` flags. -/
def StructEq (G g : Grid) : Prop :=
  g.length = G.length ∧
  (∀ r, (g.getD r []).length = (G.getD r []).length) ∧
  ∀ r c, cellAt g r c = { cellAt G r c with visited := (cellAt g r c).visited }

theorem StructEq.refl (G : Grid) : StructEq G G :=
  ⟨rfl, fun _ => rfl, fun _ _ => rfl⟩

theorem StructEq.inB {G g : Grid} (h : StructEq G g) {r c : ℕ} :
    InB G r c ↔ InB g r c := by
  rw [InB, InB, h.1, h.2.1]

theorem headI_eq_getD (l : List (List Cell)) : l.headI = l.getD 0 [] := by
  cases l <;> rfl

theorem StructEq.rect {G g : Grid} (hG : Rect G) (h : StructEq G g) : Rect g := by
  intro r hr
  rw [h.2.1 r, headI_eq_getD, h.2.1 0, ← headI_eq_getD]
  exact hG r (by rwa [h.1] at hr)

theorem StructEq.setVisited {G g : Grid} (h : StructEq G g) (r c : ℕ) :
    StructEq G (setVisited g r c) := by
  refine ⟨?_, ?_, ?_⟩
  · rw [setVisited_length, h.1]
  · intro r'
    rw [setVisited_row_length, h.2.1]
  · intro r' c'
    rw [cellAt_setVisited_fields g r c r' c']
    rw [h.2.2 r' c']

theorem StructEq.goodCell_wp {G g : Grid} (h : StructEq G g) {cell : Cell}
    (hc : GoodCell g cell) (wp : Waypoint) (hx : wp.x = cell.x) (hy : wp.y = cell.y) :
    WpGood G wp := by
  obtain ⟨r, c, hin, hcell, hbl⟩ := hc
  have hfields := h.2.2 r c
  refine ⟨r, c, h.inB.mpr hin, ?_, ?_, ?_⟩
  · have : cell.blocked = (cellAt G r c).blocked := by
      rw [← hcell, hfields]
    rw [← this, hbl]
  · rw [hx, ← hcell, hfields]
  · rw [hy, ← hcell, hfields]

/-- Invariant carried through the sweep and the cleanup pass, relative to
the marked grid `G` the sweep started from: the working grid differs from
`G` only in `visited` flags, every emitted waypoint sits at an unblocked
cell center of `G`, and every visited cell has a waypoint at its center. -/
def PInv (G : Grid) (st : Grid × List Waypoint) : Prop :=
  StructEq G st.1 ∧
  (∀ wp ∈ st.2, WpGood G wp) ∧
  (∀ r c, InB G r c → (cellAt st.1 r c).visited = true →
    ∃ wp ∈ st.2, wp.x = (cellAt G r c).x ∧ wp.y = (cellAt G r c).y)

theorem pinv_append_nav {G : Grid} (hG : Rect G) {st : Grid × List Waypoint}
    (h : PInv G st) (sx sy : ℚ) (t : Cell) (config : WallConfig) :
    PInv G (st.1, st.2 ++ find_path_around_obstacles st.1 sx sy t config) := by
  refine ⟨h.1, ?_, ?_⟩
  · intro wp hwp
    rcases List.mem_append.mp hwp with hw | hw
    · exact h.2.1 wp hw
    · obtain ⟨_, cell, hcell, hx, hy⟩ := find_path_centers (h.1.rect hG) sx sy t config wp hw
      exact h.1.goodCell_wp hcell wp hx hy
  · intro r c hin hv
    obtain ⟨wp, hwp, he⟩ := h.2.2 r c hin hv
    exact ⟨wp, List.mem_append_left _ hwp, he⟩

theorem pinv_paintCell {G : Grid} {st : Grid × List Waypoint} (h : PInv G st)
    (config : WallConfig) {row col : ℕ} (hin : InB G row col) :
    PInv G (paintCell config row st col) := by
  simp only [paintCell]
  split
  · rename_i hcond
    rw [Bool.and_eq_true, Bool.not_eq_true', Bool.not_eq_true'] at hcond
    have hfields := h.1.2.2 row col
    have hinb : InB st.1 row col := h.1.inB.mp hin
    refine ⟨h.1.setVisited row col, ?_, ?_⟩
    · intro wp hwp
      rcases List.mem_append.mp hwp with hw | hw
      · exact h.2.1 wp hw
      · rw [List.mem_singleton.mp hw]
        refine ⟨row, col, hin, ?_, ?_, ?_⟩
        · have : (cellAt st.1 row col).blocked = (cellAt G row col).blocked := by
            rw [hfields]
          rw [← this, hcond.1]
        · rw [hfields]
        · rw [hfields]
    · intro r c hin' hv
      by_cases hrc : r = row ∧ c = col
      · obtain ⟨rfl, rfl⟩ := hrc
        refine ⟨⟨(cellAt st.1 r c).x, (cellAt st.1 r c).y, _⟩,
          List.mem_append_right _ (List.mem_singleton.mpr rfl), ?_, ?_⟩
        · rw [hfields]
        · rw [hfields]
      · rw [cellAt_setVisited_ne st.1 hrc] at hv
        obtain ⟨wp, hwp, he⟩ := h.2.2 r c hin' hv
        exact ⟨wp, List.mem_append_left _ hwp, he⟩
  · exact h

theorem pinv_foldl_paintCell {G : Grid} (config : WallConfig) (row : ℕ) :
    ∀ (cols : List ℕ) (st : Grid × List Waypoint), PInv G st →
      (∀ col ∈ cols, InB G row col) →
      PInv G (cols.foldl (paintCell config row) st) := by
  intro cols
  induction cols with
  | nil => intro st h _; exact h
  | cons col rest ih =>
      intro st h hin
      exact ih _ (pinv_paintCell h config (hin col (by simp)))
        (fun c hc => hin c (List.mem_cons_of_mem _ hc))

theorem pinv_processSegment {G : Grid} (hG : Rect G) {st : Grid × List Waypoint}
    (h : PInv G st) (config : WallConfig) (row : ℕ) (direction : ℤ) (seg : ℕ × ℕ)
    (hsegin : ∀ col ∈ segCols direction seg, InB G row col) :
    PInv G (processSegment config row direction st seg) := by
  rw [processSegment]
  have h1 : PInv G (st.1,
      match st.2.getLast? with
      | none => st.2
      | some last =>
          let target_cell := cellAt st.1 row (segNavTargetCol seg)
          if !is_adjacent last.x last.y target_cell.x target_cell.y config.coverage_width then
            st.2 ++ find_path_around_obstacles st.1 last.x last.y target_cell config
          else st.2) := by
    cases st.2.getLast? with
    | none => exact h
    | some last =>
        dsimp only
        split
        · exact pinv_append_nav hG h last.x last.y _ config
        · exact h
  exact pinv_foldl_paintCell config row _ _ h1 hsegin

theorem segsAux_lt :
    ∀ (cells : List Cell) (col : ℕ) (acc : Option ℕ),
      (∀ s, acc = some s → s < col) →
      ∀ se ∈ segsAux cells col acc,
        se.1 < col + cells.length ∧ se.2 < col + cells.length := by
  intro cells
  induction cells with
  | nil =>
      intro col acc hacc se hse
      cases acc with
      | none => simp [segsAux] at hse
      | some s =>
          rw [segsAux] at hse
          rw [List.mem_singleton] at hse
          subst hse
          have := hacc s rfl
          constructor <;> simp <;> omega
  | cons c rest ih =>
      intro col acc hacc se hse
      cases acc with
      | none =>
          rw [segsAux] at hse
          split at hse
          · have := ih (col + 1) (some col) (by intro s hs; cases hs; omega) se hse
            simp only [List.length_cons]
            omega
          · have := ih (col + 1) none (by intro s hs; exact Option.noConfusion hs) se hse
            simp only [List.length_cons]
            omega
      | some s =>
          rw [segsAux] at hse
          split at hse
          · have := ih (col + 1) (some s)
              (by intro s' hs'; have := hacc s rfl; cases hs'; omega) se hse
            simp only [List.length_cons]
            omega
          · rcases List.mem_cons.mp hse with rfl | hse
            · have := hacc s rfl
              constructor <;> simp only [List.length_cons] <;> omega
            · have := ih (col + 1) none (by intro s' hs'; exact Option.noConfusion hs') se hse
              simp only [List.length_cons]
              omega

theorem get_row_segments_bounds {g : Grid} {row : ℕ} :
    ∀ se ∈ get_row_segments g row,
      se.1 < (g.getD row []).length ∧ se.2 < (g.getD row []).length := by
  intro se h
  have := segsAux_lt (g.getD row []) 0 none
    (by intro s hs; exact Option.noConfusion hs) se h
  simpa using this

theorem segCols_le {direction : ℤ} {seg : ℕ × ℕ} {col : ℕ}
    (h : col ∈ segCols direction seg) : col ≤ seg.2 := by
  rw [segCols] at h
  split at h
  · have := List.mem_range'_1.mp h
    omega
  · rw [List.mem_reverse] at h
    have := List.mem_range'_1.mp h
    omega

theorem pinv_foldl_processSegment {G : Grid} (hG : Rect G) (config : WallConfig)
    (row : ℕ) (direction : ℤ) :
    ∀ (segs : List (ℕ × ℕ)) (st : Grid × List Waypoint), PInv G st →
      (∀ se ∈ segs, se.2 < (G.getD row []).length) → row < G.length →
      PInv G (segs.foldl (processSegment config row direction) st) := by
  intro segs
  induction segs with
  | nil => intro st h _ _; exact h
  | cons seg rest ih =>
      intro st h hse hrow
      refine ih _ (pinv_processSegment hG h config row direction seg ?_)
        (fun se' hse' => hse se' (List.mem_cons_of_mem _ hse')) hrow
      intro col hcol
      exact ⟨hrow, lt_of_le_of_lt (segCols_le hcol) (hse seg (by simp))⟩

theorem pinv_paintLoop {G : Grid} (hG : Rect G) (config : WallConfig) :
    ∀ (fuel row : ℕ) (direction : ℤ) (g : Grid) (w : List Waypoint),
      PInv G (g, w) →
      PInv G (paintLoop config fuel g row direction w) := by
  intro fuel
  induction fuel with
  | zero => intro row direction g w h; exact h
  | succ fuel ih =>
      intro row direction g w h
      rw [paintLoop]
      split
      · exact ih _ _ _ _ h
      · rename_i hne
        have hrowg : row < g.length := by
          by_contra hr
          apply hne
          rw [get_row_segments, getD_default_of_le [] (by omega)]
          rfl
        have hrow : row < G.length := by rwa [← h.1.1]
        have hbounds : ∀ se ∈ (if direction = -1 then (get_row_segments g row).reverse
            else get_row_segments g row), se.2 < (G.getD row []).length := by
          intro se hse
          have hse' : se ∈ get_row_segments g row := by
            by_cases hd : direction = -1
            · rw [if_pos hd, List.mem_reverse] at hse
              exact hse
            · rwa [if_neg hd] at hse
          have := (get_row_segments_bounds se hse').2
          rwa [h.1.2.1 row] at this
        exact ih _ _ _ _
          (pinv_foldl_processSegment hG config row direction _ _ h hbounds hrow)

theorem pinv_visit {G : Grid} {st : Grid × List Waypoint} (h : PInv G st)
    {p : ℕ × ℕ} (hin : InB G p.1 p.2)
    (hbl : (cellAt st.1 p.1 p.2).blocked = false) (a : String) :
    PInv G (setVisited st.1 p.1 p.2,
      st.2 ++ [⟨(cellAt st.1 p.1 p.2).x, (cellAt st.1 p.1 p.2).y, a⟩]) := by
  have hfields := h.1.2.2 p.1 p.2
  refine ⟨h.1.setVisited p.1 p.2, ?_, ?_⟩
  · intro wp hwp
    rcases List.mem_append.mp hwp with hw | hw
    · exact h.2.1 wp hw
    · rw [List.mem_singleton.mp hw]
      refine ⟨p.1, p.2, hin, ?_, ?_, ?_⟩
      · have : (cellAt st.1 p.1 p.2).blocked = (cellAt G p.1 p.2).blocked := by
          rw [hfields]
        rw [← this, hbl]
      · rw [hfields]
      · rw [hfields]
  · intro r c hin' hv
    by_cases hrc : r = p.1 ∧ c = p.2
    · obtain ⟨rfl, rfl⟩ := hrc
      refine ⟨⟨(cellAt st.1 p.1 p.2).x, (cellAt st.1 p.1 p.2).y, _⟩,
        List.mem_append_right _ (List.mem_singleton.mpr rfl), ?_, ?_⟩
      · rw [hfields]
      · rw [hfields]
    · rw [cellAt_setVisited_ne st.1 hrc] at hv
      obtain ⟨wp, hwp, he⟩ := h.2.2 r c hin' hv
      exact ⟨wp, List.mem_append_left _ hwp, he⟩

theorem pinv_fillStep {G : Grid} (hG : Rect G) {st : Grid × List Waypoint}
    (h : PInv G st) (config : WallConfig) {p : ℕ × ℕ} (hin : InB G p.1 p.2) :
    PInv G (fillStep config st p) := by
  rw [fillStep]
  dsimp only
  split
  · rename_i hcond
    rw [Bool.and_eq_true, Bool.not_eq_true', Bool.not_eq_true'] at hcond
    cases hl : st.2.getLast? with
    | none => exact pinv_visit h hin hcond.1 "paint"
    | some last =>
        exact pinv_visit (pinv_append_nav hG h last.x last.y _ config) hin hcond.1 "paint"
  · exact h

theorem pinv_foldl_fillStep {G : Grid} (hG : Rect G) (config : WallConfig) :
    ∀ (l : List (ℕ × ℕ)) (st : Grid × List Waypoint), PInv G st →
      (∀ p ∈ l, InB G p.1 p.2) →
      PInv G (l.foldl (fillStep config) st) := by
  intro l
  induction l with
  | nil => intro st h _; exact h
  | cons p rest ih =>
      intro st h hin
      exact ih _ (pinv_fillStep hG h config (hin p (by simp)))
        (fun q hq => hin q (List.mem_cons_of_mem _ hq))

theorem fillStep_fst (config : WallConfig) (st : Grid × List Waypoint) (p : ℕ × ℕ) :
    (fillStep config st p).1 = st.1 ∨
    (fillStep config st p).1 = setVisited st.1 p.1 p.2 := by
  rw [fillStep]
  dsimp only
  split
  · cases st.2.getLast? <;> exact Or.inr rfl
  · exact Or.inl rfl

theorem foldl_fillStep_visited_mono (config : WallConfig) :
    ∀ (l : List (ℕ × ℕ)) (st : Grid × List Waypoint) (r c : ℕ),
      (cellAt st.1 r c).visited = true →
      (cellAt (l.foldl (fillStep config) st).1 r c).visited = true := by
  intro l
  induction l with
  | nil => intro st r c h; exact h
  | cons p rest ih =>
      intro st r c h
      refine ih _ r c ?_
      rcases fillStep_fst config st p with he | he
      · rwa [he]
      · rw [he]
        exact cellAt_setVisited_visited_mono st.1 h

theorem foldl_fillStep_blocked (config : WallConfig) :
    ∀ (l : List (ℕ × ℕ)) (st : Grid × List Waypoint) (r c : ℕ),
      (cellAt (l.foldl (fillStep config) st).1 r c).blocked = (cellAt st.1 r c).blocked := by
  intro l
  induction l with
  | nil => intro st r c; rfl
  | cons p rest ih =>
      intro st r c
      rw [List.foldl_cons, ih]
      rcases fillStep_fst config st p with he | he
      · rw [he]
      · rw [he, cellAt_setVisited_fields st.1 p.1 p.2 r c]

theorem foldl_fillStep_covers {G : Grid} (hG : Rect G) (config : WallConfig) :
    ∀ (l : List (ℕ × ℕ)) (st : Grid × List Waypoint), PInv G st →
      (∀ p ∈ l, InB G p.1 p.2) →
      ∀ p ∈ l,
        (cellAt (l.foldl (fillStep config) st).1 p.1 p.2).blocked = true ∨
        (cellAt (l.foldl (fillStep config) st).1 p.1 p.2).visited = true := by
  intro l
  induction l with
  | nil => intro st _ _ p hp; simp at hp
  | cons q rest ih =>
      intro st h hin p hp
      rw [List.foldl_cons]
      rcases List.mem_cons.mp hp with rfl | hp
      · have hq : (cellAt (fillStep config st p).1 p.1 p.2).blocked = true ∨
            (cellAt (fillStep config st p).1 p.1 p.2).visited = true := by
          rw [fillStep]
          dsimp only
          split
          · rename_i hcond
            right
            cases st.2.getLast? <;>
              · dsimp only
                rw [cellAt_setVisited_self st.1 (h.1.inB.mp (hin p (by simp)))]
          · rename_i hcond
            rw [Bool.and_eq_true, Bool.not_eq_true', Bool.not_eq_true'] at hcond
            push_neg at hcond
            by_cases hb : (cellAt st.1 p.1 p.2).blocked = true
            · exact Or.inl hb
            · right
              have := hcond (by simpa using hb)
              simpa using this
        rcases hq with hb | hv
        · rw [foldl_fillStep_blocked]
          exact Or.inl hb
        · exact Or.inr (foldl_fillStep_visited_mono config rest _ p.1 p.2 hv)
      · exact ih _ (pinv_fillStep hG h config (hin q (by simp)))
          (fun q' hq' => hin q' (List.mem_cons_of_mem _ hq')) p hp

theorem mem_gridPositions {g : Grid} {p : ℕ × ℕ} :
    p ∈ gridPositions g ↔ InB g p.1 p.2 := by
  rw [gridPositions]
  constructor
  · intro h
    rw [List.mem_flatten] at h
    obtain ⟨l, hl, hp⟩ := h
    rw [List.mem_map] at hl
    obtain ⟨r, hr, rfl⟩ := hl
    rw [List.mem_map] at hp
    obtain ⟨c, hc, rfl⟩ := hp
    exact ⟨List.mem_range.mp hr, List.mem_range.mp hc⟩
  · rintro ⟨h1, h2⟩
    rw [List.mem_flatten]
    refine ⟨(List.range (g.getD p.1 []).length).map (fun c => (p.1, c)),
      List.mem_map.mpr ⟨p.1, List.mem_range.mpr h1, rfl⟩,
      List.mem_map.mpr ⟨p.2, List.mem_range.mpr h2, ?_⟩⟩
    rfl

/-! ## Facts about the marked grid -/

/-- The grid the planner works on: built from the wall and marked. -/
def plannerGrid (config : WallConfig) : Grid :=
  mark_obstacles (create_grid config) config

theorem create_grid_length (config : WallConfig) :
    (create_grid config).length = num_rows config := by
  simp [create_grid]

theorem create_grid_row_length (config : WallConfig) {r : ℕ} (hr : r < num_rows config) :
    ((create_grid config).getD r []).length = num_cols config := by
  rw [create_grid, getD_map_range _ _ _ _ hr]
  simp

theorem plannerGrid_length (config : WallConfig) :
    (plannerGrid config).length = num_rows config := by
  rw [plannerGrid, mark_obstacles, List.length_map, create_grid_length]

theorem plannerGrid_row_length (config : WallConfig) {r : ℕ} (hr : r < num_rows config) :
    ((plannerGrid config).getD r []).length = num_cols config := by
  rw [plannerGrid, mark_obstacles, getD_map_row, List.length_map,
    create_grid_row_length config hr]

theorem num_rows_pos (config : WallConfig) : 0 < num_rows config := by
  rw [num_rows]
  omega

theorem num_cols_pos (config : WallConfig) : 0 < num_cols config := by
  rw [num_cols]
  omega

theorem plannerGrid_rect (config : WallConfig) : Rect (plannerGrid config) := by
  intro r hr
  rw [plannerGrid_length] at hr
  rw [plannerGrid_row_length config hr, headI_eq_getD,
    plannerGrid_row_length config (num_rows_pos config)]

theorem plannerGrid_inB (config : WallConfig) {r c : ℕ} :
    InB (plannerGrid config) r c ↔ r < num_rows config ∧ c < num_cols config := by
  rw [InB, plannerGrid_length]
  constructor
  · rintro ⟨h1, h2⟩
    rw [plannerGrid_row_length config h1] at h2
    exact ⟨h1, h2⟩
  · rintro ⟨h1, h2⟩
    rw [plannerGrid_row_length config h1]
    exact ⟨h1, h2⟩

theorem cellAt_plannerGrid (config : WallConfig) {r c : ℕ}
    (hr : r < num_rows config) (hc : c < num_cols config) :
    (cellAt (plannerGrid config) r c).x = ((c : ℚ) + 1/2) * config.coverage_width ∧
    (cellAt (plannerGrid config) r c).y = ((r : ℚ) + 1/2) * config.coverage_width ∧
    (cellAt (plannerGrid config) r c).visited = false := by
  rw [plannerGrid, mark_obstacles, cellAt_map _ _ (by rw [create_grid_row_length config hr]; exact hc),
    cellAt_create_grid config hr hc]
  split <;> exact ⟨rfl, rfl, rfl⟩

theorem pinv_init (config : WallConfig) : PInv (plannerGrid config) (plannerGrid config, []) := by
  refine ⟨StructEq.refl _, by simp, ?_⟩
  intro r c hin hv
  rw [plannerGrid_inB] at hin
  rw [(cellAt_plannerGrid config hin.1 hin.2).2.2] at hv
  exact absurd hv (by simp)

/-- After the sweep and the cleanup pass (before de-duplication): every
waypoint sits at an unblocked cell center of the marked grid, and every
unblocked cell's center carries some waypoint. -/
theorem paint_pipeline (config : WallConfig) :
    (∀ wp ∈ paint_with_obstacle_avoidance (plannerGrid config) config,
      WpGood (plannerGrid config) wp) ∧
    (∀ r c, InB (plannerGrid config) r c →
      (cellAt (plannerGrid config) r c).blocked = false →
      ∃ wp ∈ paint_with_obstacle_avoidance (plannerGrid config) config,
        wp.x = (cellAt (plannerGrid config) r c).x ∧
        wp.y = (cellAt (plannerGrid config) r c).y) := by
  have hrect := plannerGrid_rect config
  have hne : ¬(plannerGrid config = [] ∨ (plannerGrid config).headI = []) := by
    rintro (h | h)
    · have h1 := plannerGrid_length config
      rw [h] at h1
      have h2 := num_rows_pos config
      simp at h1
      omega
    · have h2 := plannerGrid_row_length config (num_rows_pos config)
      rw [← headI_eq_getD, h] at h2
      have h3 := num_cols_pos config
      simp at h2
      omega
  have hsweep : PInv (plannerGrid config)
      (paintLoop config (plannerGrid config).length (plannerGrid config) 0 1 []) :=
    pinv_paintLoop hrect config _ 0 1 _ [] (pinv_init config)
  have hposin : ∀ p ∈ gridPositions
      (paintLoop config (plannerGrid config).length (plannerGrid config) 0 1 []).1,
      InB (plannerGrid config) p.1 p.2 := by
    intro p hp
    exact hsweep.1.inB.mpr (mem_gridPositions.mp hp)
  have hfill : PInv (plannerGrid config)
      (fill_isolated_regions
        (paintLoop config (plannerGrid config).length (plannerGrid config) 0 1 []).1
        (paintLoop config (plannerGrid config).length (plannerGrid config) 0 1 []).2
        config) :=
    pinv_foldl_fillStep hrect config _ _ hsweep hposin
  constructor
  · intro wp hwp
    rw [paint_with_obstacle_avoidance, if_neg hne] at hwp
    exact hfill.2.1 wp hwp
  · intro r c hin hbl
    rw [paint_with_obstacle_avoidance, if_neg hne]
    have hmem : (r, c) ∈ gridPositions
        (paintLoop config (plannerGrid config).length (plannerGrid config) 0 1 []).1 :=
      mem_gridPositions.mpr (hsweep.1.inB.mp hin)
    have hcov := foldl_fillStep_covers hrect config _ _ hsweep hposin (r, c) hmem
    dsimp only at hcov
    rcases hcov with hb | hv
    · rw [foldl_fillStep_blocked] at hb
      have : (cellAt (paintLoop config (plannerGrid config).length
          (plannerGrid config) 0 1 []).1 r c).blocked =
          (cellAt (plannerGrid config) r c).blocked := by
        rw [hsweep.1.2.2 r c]
      rw [this, hbl] at hb
      exact absurd hb (by simp)
    · exact hfill.2.2 r c hin hv

/-! ## De-duplication preserves the set of positions -/

theorem rcd_sublist (ws : List Waypoint) :
    (remove_consecutive_duplicates ws).Sublist ws := by
  cases ws with
  | nil => simp [remove_consecutive_duplicates]
  | cons w rest =>
      rw [remove_consecutive_duplicates]
      exact (rcdAux_sublist w rest).cons₂ w

theorem rcdAux_pos_mem :
    ∀ (ws : List Waypoint) (prev : Waypoint),
      (∀ w ∈ prev :: ws, ∀ w' ∈ prev :: ws,
        |w.x - w'.x| ≤ 1/1000 → |w.y - w'.y| ≤ 1/1000 → w.x = w'.x ∧ w.y = w'.y) →
      ∀ w ∈ ws, ∃ w' ∈ prev :: rcdAux prev ws, w'.x = w.x ∧ w'.y = w.y := by
  intro ws
  induction ws with
  | nil => intro prev _ w hw; simp at hw
  | cons w0 rest ih =>
      intro prev hsep w hw
      rw [rcdAux]
      split
      · rcases List.mem_cons.mp hw with rfl | hw
        · exact ⟨w, by simp, rfl, rfl⟩
        · obtain ⟨w', hw', he⟩ := ih w0
            (fun a ha a' ha' => hsep a (by
              rcases List.mem_cons.mp ha with rfl | ha
              · simp
              · simp [List.mem_cons_of_mem _ ha]) a' (by
              rcases List.mem_cons.mp ha' with rfl | ha'
              · simp
              · simp [List.mem_cons_of_mem _ ha'])) w hw
          rcases List.mem_cons.mp hw' with rfl | hw'
          · exact ⟨w', by simp, he⟩
          · exact ⟨w', by simp [List.mem_cons_of_mem _ hw'], he⟩
      · rename_i hcond
        push_neg at hcond
        have hw0 : w0.x = prev.x ∧ w0.y = prev.y :=
          hsep w0 (by simp) prev (by simp) hcond.1 hcond.2
        rcases List.mem_cons.mp hw with rfl | hw
        · exact ⟨prev, by simp, hw0.1.symm, hw0.2.symm⟩
        · exact ih prev
            (fun a ha a' ha' => hsep a (by
              rcases List.mem_cons.mp ha with rfl | ha
              · simp
              · simp [List.mem_cons_of_mem _ ha]) a' (by
              rcases List.mem_cons.mp ha' with rfl | ha'
              · simp
              · simp [List.mem_cons_of_mem _ ha'])) w hw

theorem rcd_pos_mem {ws : List Waypoint}
    (hsep : ∀ w ∈ ws, ∀ w' ∈ ws,
      |w.x - w'.x| ≤ 1/1000 → |w.y - w'.y| ≤ 1/1000 → w.x = w'.x ∧ w.y = w'.y) :
    ∀ w ∈ ws, ∃ w' ∈ remove_consecutive_duplicates ws, w'.x = w.x ∧ w'.y = w.y := by
  cases ws with
  | nil => intro w hw; simp at hw
  | cons w0 rest =>
      intro w hw
      rw [remove_consecutive_duplicates]
      rcases List.mem_cons.mp hw with rfl | hw
      · exact ⟨w, by simp, rfl, rfl⟩
      · exact rcdAux_pos_mem rest w0 hsep w hw

/-! ## Arithmetic about cell centers -/

theorem close_centers_eq {cw : ℚ} (hcw : 1/1000 < cw) {a b : ℕ}
    (h : |((a : ℚ) + 1/2) * cw - ((b : ℚ) + 1/2) * cw| ≤ 1/1000) : a = b := by
  by_contra hne
  have h2 : 1 ≤ |(a : ℤ) - (b : ℤ)| := Int.one_le_abs (by
    intro hz
    exact hne (by exact_mod_cast sub_eq_zero.mp hz))
  have h1 : (1 : ℚ) ≤ |(a : ℚ) - (b : ℚ)| := by
    have h3 : ((1 : ℤ) : ℚ) ≤ ((|(a : ℤ) - (b : ℤ)| : ℤ) : ℚ) := Int.cast_le.mpr h2
    rwa [Int.cast_abs, Int.cast_sub, Int.cast_one, Int.cast_natCast, Int.cast_natCast] at h3
  have habs : |((a : ℚ) + 1/2) * cw - ((b : ℚ) + 1/2) * cw| = |(a : ℚ) - (b : ℚ)| * cw := by
    rw [show ((a : ℚ) + 1/2) * cw - ((b : ℚ) + 1/2) * cw = ((a : ℚ) - (b : ℚ)) * cw by ring,
      abs_mul, abs_of_pos (a := cw) (by linarith)]
  rw [habs] at h
  have hge : cw ≤ |(a : ℚ) - (b : ℚ)| * cw :=
    le_mul_of_one_le_left (by linarith) h1
  linarith

theorem eq_centers_eq {cw : ℚ} (hcw : cw ≠ 0) {a b : ℕ}
    (h : ((a : ℚ) + 1/2) * cw = ((b : ℚ) + 1/2) * cw) : a = b := by
  have := mul_right_cancel₀ hcw h
  have : (a : ℚ) = (b : ℚ) := by linarith
  exact_mod_cast this

/-- Any two waypoints at unblocked centers of the marked grid that are within
the compaction tolerance of each other coincide (coverage width above the
tolerance). -/
theorem wpgood_sep (config : WallConfig) (hcw : 1/1000 < config.coverage_width)
    {w w' : Waypoint} (hw : WpGood (plannerGrid config) w) (hw' : WpGood (plannerGrid config) w')
    (hx : |w.x - w'.x| ≤ 1/1000) (hy : |w.y - w'.y| ≤ 1/1000) :
    w.x = w'.x ∧ w.y = w'.y := by
  obtain ⟨r, c, hin, _, hwx, hwy⟩ := hw
  obtain ⟨r', c', hin', _, hwx', hwy'⟩ := hw'
  rw [plannerGrid_inB] at hin hin'
  obtain ⟨hxv, hyv, _⟩ := cellAt_plannerGrid config hin.1 hin.2
  obtain ⟨hxv', hyv', _⟩ := cellAt_plannerGrid config hin'.1 hin'.2
  rw [hwx, hxv, hwx', hxv'] at hx ⊢
  rw [hwy, hyv, hwy', hyv'] at hy ⊢
  rw [close_centers_eq hcw hx, close_centers_eq hcw hy]
  exact ⟨rfl, rfl⟩

/-- C2 (amended): for every configuration whose coverage width exceeds the
compaction tolerance, every unblocked cell's center appears (at least once)
in the output of `generate_trajectory` — the cleanup pass visits every
unblocked, unvisited cell; navigation "move" waypoints may additionally
repeat centers, so "exactly once" fails (see the counterexample). -/
theorem c2_unblocked_centers_appear (config : WallConfig)
    (hcw : 1/1000 < config.coverage_width) :
    ∀ r c, r < num_rows config → c < num_cols config →
      (cellAt (plannerGrid config) r c).blocked = false →
      ∃ wp ∈ generate_trajectory config,
        wp.x = ((c : ℚ) + 1/2) * config.coverage_width ∧
        wp.y = ((r : ℚ) + 1/2) * config.coverage_width := by
  intro r c hr hc hbl
  obtain ⟨hp1, hp2⟩ := paint_pipeline config
  obtain ⟨wp0, hwp0, hx0, hy0⟩ := hp2 r c ((plannerGrid_inB config).mpr ⟨hr, hc⟩) hbl
  obtain ⟨w', hw', hex, hey⟩ := rcd_pos_mem
    (fun w hw w' hw' hx hy => wpgood_sep config hcw (hp1 w hw) (hp1 w' hw') hx hy)
    wp0 hwp0
  refine ⟨w', hw', ?_, ?_⟩
  · rw [hex, hx0, (cellAt_plannerGrid config hr hc).1]
  · rw [hey, hy0, (cellAt_plannerGrid config hr hc).2.1]

/-- Witness for `c2_unblocked_centers_appear` at `cfgSplit`, cell (0,0). -/
theorem c2_unblocked_centers_appear_witness :
    ∃ wp ∈ generate_trajectory cfgSplit,
      wp.x = (((0 : ℕ) : ℚ) + 1/2) * cfgSplit.coverage_width ∧
      wp.y = (((0 : ℕ) : ℚ) + 1/2) * cfgSplit.coverage_width :=
  c2_unblocked_centers_appear cfgSplit (by decide) 0 0 (by decide) (by decide) (by decide)

/-- C10: every waypoint of `generate_trajectory`'s output lies at the center
of some unblocked grid cell, and never at a blocked cell's center. -/
theorem c10_output_at_unblocked_centers (config : WallConfig)
    (hcw : 0 < config.coverage_width) :
    ∀ wp ∈ generate_trajectory config,
      (∃ r c, r < num_rows config ∧ c < num_cols config ∧
        (cellAt (plannerGrid config) r c).blocked = false ∧
        wp.x = (cellAt (plannerGrid config) r c).x ∧
        wp.y = (cellAt (plannerGrid config) r c).y) ∧
      ∀ r c, r < num_rows config → c < num_cols config →
        (cellAt (plannerGrid config) r c).blocked = true →
        ¬(wp.x = (cellAt (plannerGrid config) r c).x ∧
          wp.y = (cellAt (plannerGrid config) r c).y) := by
  intro wp hwp
  have hpre : wp ∈ paint_with_obstacle_avoidance (plannerGrid config) config :=
    (rcd_sublist _).subset hwp
  obtain ⟨r0, c0, hin0, hbl0, hx0, hy0⟩ := (paint_pipeline config).1 wp hpre
  rw [plannerGrid_inB] at hin0
  refine ⟨⟨r0, c0, hin0.1, hin0.2, hbl0, hx0, hy0⟩, ?_⟩
  rintro r c hr hc hbl ⟨hx, hy⟩
  obtain ⟨hxv, hyv, _⟩ := cellAt_plannerGrid config hr hc
  obtain ⟨hxv0, hyv0, _⟩ := cellAt_plannerGrid config hin0.1 hin0.2
  have hcc : c0 = c := eq_centers_eq (ne_of_gt hcw) (by rw [← hxv0, ← hx0, hx, hxv])
  have hrr : r0 = r := eq_centers_eq (ne_of_gt hcw) (by rw [← hyv0, ← hy0, hy, hyv])
  rw [hrr, hcc] at hbl0
  rw [hbl] at hbl0
  exact Bool.noConfusion hbl0

/-- Witness for `c10_output_at_unblocked_centers`: the first output waypoint
of `cfgSplit` sits at an unblocked cell center. -/
theorem c10_output_at_unblocked_centers_witness :
    ∃ r c, r < num_rows cfgSplit ∧ c < num_cols cfgSplit ∧
      (cellAt (plannerGrid cfgSplit) r c).blocked = false ∧
      (⟨1/2, 1/2, "move"⟩ : Waypoint).x = (cellAt (plannerGrid cfgSplit) r c).x ∧
      (⟨1/2, 1/2, "move"⟩ : Waypoint).y = (cellAt (plannerGrid cfgSplit) r c).y :=
  (c10_output_at_unblocked_centers cfgSplit (by decide) ⟨1/2, 1/2, "move"⟩ (by decide)).1

theorem center_le_dim {w cw : ℚ} (hcw : 0 < cw) (h2 : cw ≤ 2 * w) {c : ℕ}
    (hc : c < max 1 (Int.toNat ⌊w / cw⌋)) : ((c : ℚ) + 1/2) * cw ≤ w := by
  by_cases h1 : Int.toNat ⌊w / cw⌋ = 0
  · have hc0 : c = 0 := by omega
    subst hc0
    push_cast
    linarith
  · have hcn : c + 1 ≤ Int.toNat ⌊w / cw⌋ := by omega
    have hfl : (0 : ℤ) ≤ ⌊w / cw⌋ := by omega
    have hcast : ((Int.toNat ⌊w / cw⌋ : ℕ) : ℚ) = ((⌊w / cw⌋ : ℤ) : ℚ) := by
      exact_mod_cast congrArg (Int.cast : ℤ → ℚ) (Int.toNat_of_nonneg hfl)
    have hnq : ((Int.toNat ⌊w / cw⌋ : ℕ) : ℚ) * cw ≤ w := by
      rw [hcast, ← le_div_iff₀ hcw]
      exact Int.floor_le _
    have hcq : (c : ℚ) + 1 ≤ ((Int.toNat ⌊w / cw⌋ : ℕ) : ℚ) := by exact_mod_cast hcn
    nlinarith [mul_le_mul_of_nonneg_right hcq (le_of_lt hcw)]

/-- C5 (amended): waypoints stay inside `[0, width] × [0, height]` provided
the coverage width is at most twice each wall dimension; in the degenerate
clamped case the single center `coverage_width / 2` can exceed the wall
(see the counterexample). -/
theorem c5_output_within_wall (config : WallConfig) (hcw : 0 < config.coverage_width)
    (hw2 : config.coverage_width ≤ 2 * config.width)
    (hh2 : config.coverage_width ≤ 2 * config.height) :
    ∀ wp ∈ generate_trajectory config,
      0 ≤ wp.x ∧ wp.x ≤ config.width ∧ 0 ≤ wp.y ∧ wp.y ≤ config.height := by
  intro wp hwp
  have hpre : wp ∈ paint_with_obstacle_avoidance (plannerGrid config) config :=
    (rcd_sublist _).subset hwp
  obtain ⟨r, c, hin, _, hx, hy⟩ := (paint_pipeline config).1 wp hpre
  rw [plannerGrid_inB] at hin
  obtain ⟨hxv, hyv, _⟩ := cellAt_plannerGrid config hin.1 hin.2
  rw [hx, hxv, hy, hyv]
  have hxpos : (0 : ℚ) ≤ ((c : ℚ) + 1/2) * config.coverage_width :=
    le_of_lt (mul_pos (by positivity) hcw)
  have hypos : (0 : ℚ) ≤ ((r : ℚ) + 1/2) * config.coverage_width :=
    le_of_lt (mul_pos (by positivity) hcw)
  refine ⟨hxpos, ?_, hypos, ?_⟩
  · exact center_le_dim hcw hw2 (by have := hin.2; rwa [num_cols] at this)
  · exact center_le_dim hcw hh2 (by have := hin.1; rwa [num_rows] at this)

/-- Witness for `c5_output_within_wall` at `cfgSplit`'s first waypoint. -/
theorem c5_output_within_wall_witness :
    0 ≤ (⟨1/2, 1/2, "move"⟩ : Waypoint).x ∧
    (⟨1/2, 1/2, "move"⟩ : Waypoint).x ≤ cfgSplit.width ∧
    0 ≤ (⟨1/2, 1/2, "move"⟩ : Waypoint).y ∧
    (⟨1/2, 1/2, "move"⟩ : Waypoint).y ≤ cfgSplit.height :=
  c5_output_within_wall cfgSplit (by decide) (by decide) (by decide)
    ⟨1/2, 1/2, "move"⟩ (by decide)

/-! ## A* correctness: order lemmas for the open set -/

theorem keyLt_trans {a b c : ℚ × Cell} (h1 : keyLt a b) (h2 : keyLt b c) : keyLt a c := by
  unfold keyLt at h1 h2 ⊢
  rcases h1 with h1 | ⟨he1, h1⟩ <;> rcases h2 with h2 | ⟨he2, h2⟩
  · exact Or.inl (lt_trans h1 h2)
  · exact Or.inl (he2 ▸ h1)
  · exact Or.inl (he1 ▸ h2)
  · right
    refine ⟨he1.trans he2, ?_⟩
    rcases h1 with h1 | ⟨hr1, h1⟩ <;> rcases h2 with h2 | ⟨hr2, h2⟩
    · exact Or.inl (lt_trans h1 h2)
    · exact Or.inl (hr2 ▸ h1)
    · exact Or.inl (hr1 ▸ h2)
    · exact Or.inr ⟨hr1.trans hr2, lt_trans h1 h2⟩

theorem keyLt_total (a b : ℚ × Cell) :
    keyLt a b ∨ keyLt b a ∨
      (a.1 = b.1 ∧ a.2.row = b.2.row ∧ a.2.col = b.2.col) := by
  unfold keyLt
  rcases lt_trichotomy a.1 b.1 with h | h | h
  · exact Or.inl (Or.inl h)
  · rcases Nat.lt_trichotomy a.2.row b.2.row with hr | hr | hr
    · exact Or.inl (Or.inr ⟨h, Or.inl hr⟩)
    · rcases Nat.lt_trichotomy a.2.col b.2.col with hc | hc | hc
      · exact Or.inl (Or.inr ⟨h, Or.inr ⟨hr, hc⟩⟩)
      · exact Or.inr (Or.inr ⟨h, hr, hc⟩)
      · exact Or.inr (Or.inl (Or.inr ⟨h.symm, Or.inr ⟨hr.symm, hc⟩⟩))
    · exact Or.inr (Or.inl (Or.inr ⟨h.symm, Or.inl hr⟩))
  · exact Or.inr (Or.inl (Or.inl h))

theorem keyLt_congr {a b c : ℚ × Cell}
    (he : a.1 = b.1 ∧ a.2.row = b.2.row ∧ a.2.col = b.2.col) :
    keyLt a c ↔ keyLt b c := by
  unfold keyLt
  rw [he.1, he.2.1, he.2.2]

theorem popMinAux_min (best : ℚ × Cell) (l : List (ℚ × Cell)) :
    ∀ x ∈ best :: l, ¬ keyLt x (popMinAux best l).1 := by
  induction l generalizing best with
  | nil =>
      intro x hx hlt
      have hxb : x = best := by simpa using hx
      simp only [popMinAux] at hlt
      rw [hxb] at hlt
      unfold keyLt at hlt
      rcases hlt with h | ⟨-, h | ⟨-, h⟩⟩ <;> exact absurd h (lt_irrefl _)
  | cons e rest ih =>
      intro x hx hlt
      rw [popMinAux] at hlt
      split at hlt
      · rename_i heb
        rcases List.mem_cons.mp hx with hxb | hx2
        · have hlt2 : keyLt best (popMinAux e rest).1 := by rw [← hxb]; exact hlt
          exact ih e e (by simp) (keyLt_trans heb hlt2)
        · rcases List.mem_cons.mp hx2 with hxe | hx3
          · exact ih e x (by simp [hxe]) hlt
          · exact ih e x (by simp [hx3]) hlt
      · rename_i heb
        rcases List.mem_cons.mp hx with hxb | hx2
        · exact ih best x (by simp [hxb]) hlt
        · rcases List.mem_cons.mp hx2 with hxe | hx3
          · rcases keyLt_total x best with h | h | h
            · exact heb (by rw [← hxe]; exact h)
            · exact ih best best (by simp) (keyLt_trans h hlt)
            · exact ih best best (by simp) ((keyLt_congr h).mp hlt)
          · exact ih best x (by simp [hx3]) hlt

theorem popMinAux_perm (best : ℚ × Cell) (l : List (ℚ × Cell)) :
    ((popMinAux best l).1 :: (popMinAux best l).2).Perm (best :: l) := by
  induction l generalizing best with
  | nil => rw [popMinAux]
  | cons e rest ih =>
      rw [popMinAux]
      split
      · exact List.Perm.trans
          (List.Perm.swap best (popMinAux e rest).1 (popMinAux e rest).2)
          ((ih e).cons best)
      · exact ((List.Perm.swap e (popMinAux best rest).1 (popMinAux best rest).2).trans
          ((ih best).cons e)).trans (List.Perm.swap best e rest)

theorem popMin_perm {l : List (ℚ × Cell)} {e : ℚ × Cell} {rest : List (ℚ × Cell)}
    (h : popMin l = some (e, rest)) : (e :: rest).Perm l := by
  cases l with
  | nil => simp [popMin] at h
  | cons a as =>
      rw [popMin] at h
      have h1 := congrArg Prod.fst (Option.some.inj h)
      have h2 := congrArg Prod.snd (Option.some.inj h)
      simp only at h1 h2
      rw [← h1, ← h2]
      exact popMinAux_perm a as

theorem popMin_min {l : List (ℚ × Cell)} {e : ℚ × Cell} {rest : List (ℚ × Cell)}
    (h : popMin l = some (e, rest)) : ∀ x ∈ l, ¬ keyLt x e := by
  cases l with
  | nil => simp [popMin] at h
  | cons a as =>
      rw [popMin] at h
      have h1 := congrArg Prod.fst (Option.some.inj h)
      simp only at h1
      rw [← h1]
      exact popMinAux_min a as

/-! ## A* correctness: well-formed grids and walk geometry -/

/-- Well-formed planner grid for `config`: rectangular, and the cell stored
at index `(r, c)` records exactly that index and the cell-center coordinates
`create_grid` assigns.  `plannerGrid` satisfies this (proved below). -/
def GridWF (config : WallConfig) (grid : Grid) : Prop :=
  Rect grid ∧ ∀ r c, InB grid r c →
    (cellAt grid r c).row = r ∧ (cellAt grid r c).col = c ∧
    (cellAt grid r c).x = ((c : ℚ) + 1/2) * config.coverage_width ∧
    (cellAt grid r c).y = ((r : ℚ) + 1/2) * config.coverage_width

theorem unbAt_inB {grid : Grid} (hrect : Rect grid) {p : ℕ × ℕ}
    (h : UnbAt grid p) : InB grid p.1 p.2 :=
  ⟨h.1, by rw [hrect p.1 h.1]; exact h.2.1⟩

theorem inB_lt_headI {grid : Grid} (hrect : Rect grid) {p : ℕ × ℕ}
    (h : InB grid p.1 p.2) : p.2 < grid.headI.length := by
  rw [← hrect p.1 h.1]; exact h.2

theorem inB_unbAt {grid : Grid} (hrect : Rect grid) {p : ℕ × ℕ}
    (h : InB grid p.1 p.2) (hb : (cellAt grid p.1 p.2).blocked = false) :
    UnbAt grid p :=
  ⟨h.1, inB_lt_headI hrect h, hb⟩

theorem chain_append_single {α : Type} {R : α → α → Prop} :
    ∀ {l : List α} {s q : α}, List.Chain R s l → R (l.getLastD s) q →
      List.Chain R s (l ++ [q]) := by
  intro l
  induction l with
  | nil =>
      intro s q _ hr
      exact List.chain_cons.mpr ⟨hr, List.Chain.nil⟩
  | cons a l ih =>
      intro s q hc hr
      rcases List.chain_cons.mp hc with ⟨hsa, hal⟩
      rw [List.getLastD_cons] at hr
      exact List.chain_cons.mpr ⟨hsa, ih hal hr⟩

theorem getLastD_append_single {α : Type} (l : List α) (a : α) :
    ∀ d, (l ++ [a]).getLastD d = a := by
  induction l with
  | nil => intro d; rfl
  | cons b l ih =>
      intro d
      rw [List.cons_append, List.getLastD_cons]
      exact ih b

/-- Extending a walk by one unblocked step. -/
theorem WalkTo.extend {grid : Grid} {s t q : ℕ × ℕ} {l : List (ℕ × ℕ)}
    (h : WalkTo grid s l t) (hstep : AdjStep t q) (hq : UnbAt grid q) :
    WalkTo grid s (l ++ [q]) q := by
  refine ⟨h.1, chain_append_single h.2.1 (by rw [h.2.2.2]; exact hstep), ?_, ?_⟩
  · intro p hp
    rcases List.mem_append.mp hp with hp | hp
    · exact h.2.2.1 p hp
    · rw [List.mem_singleton.mp hp]; exact hq
  · exact getLastD_append_single l q s

theorem adjStep_irrefl (p : ℕ × ℕ) : ¬ AdjStep p p := by
  unfold AdjStep; omega

/-- A grid step is a move by one of the four A* neighbor offsets. -/
theorem adjStep_iff_dir {p q : ℕ × ℕ} :
    AdjStep p q ↔ ∃ d ∈ neighborDirs,
      (q.1 : ℤ) = (p.1 : ℤ) + d.1 ∧ (q.2 : ℤ) = (p.2 : ℤ) + d.2 := by
  constructor
  · unfold AdjStep
    rintro (⟨h1, h2 | h2⟩ | ⟨h1, h2 | h2⟩)
    · exact ⟨(0, 1), by simp [neighborDirs], by omega, by omega⟩
    · exact ⟨(0, -1), by simp [neighborDirs], by omega, by omega⟩
    · exact ⟨(1, 0), by simp [neighborDirs], by omega, by omega⟩
    · exact ⟨(-1, 0), by simp [neighborDirs], by omega, by omega⟩
  · rintro ⟨d, hd, h1, h2⟩
    fin_cases hd <;> simp at h1 h2 <;> unfold AdjStep <;> omega

theorem cellCount_rect {grid : Grid} (hrect : Rect grid) :
    cellCount grid = grid.length * grid.headI.length := by
  unfold cellCount
  have key : ∀ (l : List (List Cell)) (C : ℕ),
      (∀ r, r < l.length → (l.getD r []).length = C) →
      (l.map List.length).sum = l.length * C := by
    intro l C h
    induction l with
    | nil => simp
    | cons a as ih =>
        simp only [List.map_cons, List.sum_cons, List.length_cons]
        rw [ih (fun r hr => h (r + 1) (by simpa using Nat.succ_lt_succ hr)),
          show a.length = C from h 0 (by simp)]
        ring
  exact key grid grid.headI.length hrect

/-- A duplicate-free list of in-bounds positions has at most `cellCount`
entries. -/
theorem nodup_inB_length {grid : Grid} (hrect : Rect grid) {l : List (ℕ × ℕ)}
    (hnd : l.Nodup) (hin : ∀ p ∈ l, InB grid p.1 p.2) :
    l.length ≤ cellCount grid := by
  classical
  rw [cellCount_rect hrect]
  have h1 : l.toFinset ⊆
      Finset.range grid.length ×ˢ Finset.range grid.headI.length := by
    intro p hp
    rw [List.mem_toFinset] at hp
    have h2 := hin p hp
    rw [Finset.mem_product, Finset.mem_range, Finset.mem_range]
    exact ⟨h2.1, inB_lt_headI hrect h2⟩
  calc l.length = l.toFinset.card := (List.toFinset_card_of_nodup hnd).symm
    _ ≤ _ := Finset.card_le_card h1
    _ = _ := by rw [Finset.card_product, Finset.card_range, Finset.card_range]

theorem abs_center_sub {cw : ℚ} (hcw : 0 < cw) (a b : ℕ)
    (hab : a + 1 = b ∨ b + 1 = a) :
    |((a : ℚ) + 1/2) * cw - ((b : ℚ) + 1/2) * cw| = cw := by
  rcases hab with h | h
  · have he : ((a : ℚ) + 1/2) * cw - ((b : ℚ) + 1/2) * cw = -cw := by
      rw [← h]; push_cast; ring
    rw [he, abs_neg, abs_of_pos hcw]
  · have he : ((a : ℚ) + 1/2) * cw - ((b : ℚ) + 1/2) * cw = cw := by
      rw [← h]; push_cast; ring
    rw [he, abs_of_pos hcw]

/-- The Manhattan heuristic between cell centers underestimates
`coverage_width` times the length of any walk between the positions. -/
theorem walk_heuristic_le {grid : Grid} {config : WallConfig}
    (hwf : GridWF config grid) (hcw : 0 < config.coverage_width)
    {t : ℕ × ℕ} (htb : InB grid t.1 t.2) :
    ∀ (l : List (ℕ × ℕ)) (p : ℕ × ℕ), InB grid p.1 p.2 →
      List.Chain AdjStep p l → (∀ q ∈ l, InB grid q.1 q.2) →
      l.getLastD p = t →
      heuristic (cellAt grid t.1 t.2) (cellAt grid p.1 p.2) ≤
        config.coverage_width * l.length := by
  intro l
  induction l with
  | nil =>
      intro p hp _ _ hlast
      simp only [List.getLastD_nil] at hlast
      subst hlast
      unfold heuristic
      simp
  | cons q l ih =>
      intro p hp hchain hall hlast
      rcases List.chain_cons.mp hchain with ⟨hpq, hchain2⟩
      have hq : InB grid q.1 q.2 := hall q (by simp)
      have hih := ih q hq hchain2 (fun r hr => hall r (by simp [hr]))
        (by rw [List.getLastD_cons] at hlast; exact hlast)
      have hwp := hwf.2 p.1 p.2 hp
      have hwq := hwf.2 q.1 q.2 hq
      have hwt := hwf.2 t.1 t.2 htb
      unfold heuristic at hih ⊢
      rw [hwp.2.2.1, hwp.2.2.2, hwt.2.2.1, hwt.2.2.2]
      rw [hwq.2.2.1, hwq.2.2.2, hwt.2.2.1, hwt.2.2.2] at hih
      unfold AdjStep at hpq
      rw [List.length_cons]
      push_cast
      rcases hpq with ⟨h1, h2⟩ | ⟨h1, h2⟩
      · have hy : ((p.1 : ℚ) + 1/2) * config.coverage_width =
            ((q.1 : ℚ) + 1/2) * config.coverage_width := by rw [h1]
        have hx := abs_center_sub hcw p.2 q.2 h2
        have htri := abs_sub_le (((p.2 : ℚ) + 1/2) * config.coverage_width)
          (((q.2 : ℚ) + 1/2) * config.coverage_width)
          (((t.2 : ℚ) + 1/2) * config.coverage_width)
        rw [hy]
        linarith
      · have hx : ((p.2 : ℚ) + 1/2) * config.coverage_width =
            ((q.2 : ℚ) + 1/2) * config.coverage_width := by rw [h1]
        have hy := abs_center_sub hcw p.1 q.1 h2
        have htri := abs_sub_le (((p.1 : ℚ) + 1/2) * config.coverage_width)
          (((q.1 : ℚ) + 1/2) * config.coverage_width)
          (((t.1 : ℚ) + 1/2) * config.coverage_width)
        rw [hx]
        linarith

/-- The heuristic of a cell against itself vanishes. -/
theorem heuristic_self (c : Cell) : heuristic c c = 0 := by
  unfold heuristic
  simp

/-- The "move" waypoint the Navigator emits for the center of position `p`. -/
def navWp (config : WallConfig) (p : ℕ × ℕ) : Waypoint :=
  ⟨((p.2 : ℚ) + 1/2) * config.coverage_width,
   ((p.1 : ℚ) + 1/2) * config.coverage_width, "move"⟩

/-! ## A* correctness: the loop invariant -/

/-- The recorded g-score `v` of position `p` is witnessed by a duplicate-free
walk from `s` of exact length `v / cw`, every vertex of which already has a
recorded g-score bounded by `cw` times its position along the walk. -/
def GPath (grid : Grid) (cw : ℚ) (st : AState) (s p : ℕ × ℕ) (v : ℚ) : Prop :=
  UnbAt grid p ∧ ∃ l : List (ℕ × ℕ),
    WalkTo grid s l p ∧ (s :: l).Nodup ∧ v = cw * l.length ∧
    ∀ i (hi : i < l.length), ∃ vq, st.g (l.get ⟨i, hi⟩) = some vq ∧
      vq ≤ cw * (i + 1)

/-- Every unblocked neighbor of `p` has a recorded g-score at most `v + cw`
(the state of `p` after its entry has been expanded). -/
def Relaxed (grid : Grid) (cw : ℚ) (st : AState) (p : ℕ × ℕ) (v : ℚ) : Prop :=
  ∀ q, AdjStep p q → UnbAt grid q → ∃ vq, st.g q = some vq ∧ vq ≤ v + cw

/-- Open-set entry invariant: the entry's cell is an unblocked grid cell with
a recorded g-score, and the entry's key dominates `g + h`. -/
def EntryInv (grid : Grid) (target : Cell) (st : AState) (e : ℚ × Cell) : Prop :=
  InB grid e.2.row e.2.col ∧ cellAt grid e.2.row e.2.col = e.2 ∧
  e.2.blocked = false ∧
  ∃ v, st.g (e.2.row, e.2.col) = some v ∧ v + heuristic target e.2 ≤ e.1

/-- `came_from` entry invariant: the predecessor is an unblocked grid cell
one step away whose g-score is smaller by at least `cw`. -/
def CameInv (grid : Grid) (cw : ℚ) (st : AState) (s p : ℕ × ℕ) (c : Cell) :
    Prop :=
  AdjStep (c.row, c.col) p ∧ UnbAt grid p ∧ InB grid c.row c.col ∧
  cellAt grid c.row c.col = c ∧ c.blocked = false ∧ p ≠ s ∧
  (∃ v, st.g p = some v) ∧ (∃ v, st.g (c.row, c.col) = some v) ∧
  ∀ v w, st.g p = some v → st.g (c.row, c.col) = some w → w + cw ≤ v

/-- All fields of the A* loop invariant except the freshness of open
entries; this part is preserved by every single relaxation step. -/
structure AInvCore (grid : Grid) (config : WallConfig) (target : Cell)
    (s : ℕ × ℕ) (st : AState) : Prop where
  gstart : st.g s = some 0
  gpath : ∀ p v, st.g p = some v → GPath grid config.coverage_width st s p v
  openinv : ∀ e ∈ st.open_set, EntryInv grid target st e
  tentry : ∀ v, st.g (target.row, target.col) = some v →
    ∃ e ∈ st.open_set, (e.2.row, e.2.col) = (target.row, target.col)
  cameinv : ∀ p c, st.came p = some c →
    CameInv grid config.coverage_width st s p c
  camedom : ∀ p v, st.g p = some v → p = s ∨ ∃ c, st.came p = some c

/-- The A* loop invariant: established by the initial state of
`find_path_around_obstacles` and preserved by every loop iteration. -/
structure AInv (grid : Grid) (config : WallConfig) (target : Cell)
    (s : ℕ × ℕ) (st : AState) extends
      AInvCore grid config target s st : Prop where
  fresh : ∀ p v, st.g p = some v →
    (∃ e ∈ st.open_set, (e.2.row, e.2.col) = p ∧
      e.1 = v + heuristic target e.2) ∨
    Relaxed grid config.coverage_width st p v

/-- Case analysis of one relaxation step: either the state is unchanged, or
the step targets an in-grid unblocked position `q` one offset away whose
g-score strictly improves, and the state is updated exactly as the source
writes it. -/
theorem relaxNeighbor_cases {grid : Grid} {config : WallConfig}
    {target u : Cell} (hwf : GridWF config grid) (st : AState) (d : ℤ × ℤ) :
    relaxNeighbor grid config target u st d = st ∨
    ∃ q : ℕ × ℕ,
      (q.1 : ℤ) = (u.row : ℤ) + d.1 ∧ (q.2 : ℤ) = (u.col : ℤ) + d.2 ∧
      UnbAt grid q ∧
      (st.g q = none ∨ ∃ vold, st.g q = some vold ∧
        (st.g (u.row, u.col)).getD 0 + config.coverage_width < vold) ∧
      relaxNeighbor grid config target u st d =
        { open_set := ((st.g (u.row, u.col)).getD 0 + config.coverage_width +
            heuristic target (cellAt grid q.1 q.2), cellAt grid q.1 q.2) ::
            st.open_set,
          came := fun p => if p = q then some u else st.came p,
          g := fun p => if p = q then
              some ((st.g (u.row, u.col)).getD 0 + config.coverage_width)
            else st.g p } := by
  simp only [relaxNeighbor]
  split
  · exact Or.inl rfl
  split
  · exact Or.inl rfl
  split
  · exact Or.inl rfl
  · rename_i hrb hcb hbl
    push_neg at hrb hcb
    have hinb : InB grid ((u.row : ℤ) + d.1).toNat ((u.col : ℤ) + d.2).toNat := by
      constructor
      · omega
      · rw [hwf.1 _ (by omega)]
        omega
    have hrow := (hwf.2 _ _ hinb).1
    have hcol := (hwf.2 _ _ hinb).2.1
    have hk : ((cellAt grid ((u.row : ℤ) + d.1).toNat
          ((u.col : ℤ) + d.2).toNat).row,
        (cellAt grid ((u.row : ℤ) + d.1).toNat
          ((u.col : ℤ) + d.2).toNat).col) =
        (((u.row : ℤ) + d.1).toNat, ((u.col : ℤ) + d.2).toNat) := by
      rw [hrow, hcol]
    split
    · rename_i himp
      right
      refine ⟨(((u.row : ℤ) + d.1).toNat, ((u.col : ℤ) + d.2).toNat),
        by omega, by omega, ⟨by omega, by omega, by simpa using hbl⟩, ?_, ?_⟩
      · rw [hk] at himp
        rcases hg : st.g (((u.row : ℤ) + d.1).toNat, ((u.col : ℤ) + d.2).toNat)
          with _ | vold
        · exact Or.inl rfl
        · right
          refine ⟨vold, rfl, ?_⟩
          rw [hg] at himp
          simpa using himp
      · simp only [hk]
    · exact Or.inl rfl

/-- A relaxation step never removes or increases a recorded g-score. -/
theorem relaxNeighbor_g_mono {grid : Grid} {config : WallConfig}
    {target u : Cell} (hwf : GridWF config grid) (st : AState) (d : ℤ × ℤ)
    {p : ℕ × ℕ} {v : ℚ} (h : st.g p = some v) :
    ∃ v', (relaxNeighbor grid config target u st d).g p = some v' ∧ v' ≤ v := by
  rcases relaxNeighbor_cases hwf st d with hid | ⟨q, _, _, _, hcond, hrec⟩
  · exact ⟨v, by rw [hid]; exact h, le_refl v⟩
  · rw [hrec]
    by_cases hpq : p = q
    · subst hpq
      rcases hcond with hnone | ⟨vold, hvold, hlt⟩
      · rw [h] at hnone; cases hnone
      · rw [h] at hvold
        refine ⟨(st.g (u.row, u.col)).getD 0 + config.coverage_width,
          by simp, ?_⟩
        rw [Option.some.inj hvold]
        exact le_of_lt hlt
    · exact ⟨v, by simp only [if_neg hpq]; exact h, le_refl v⟩

theorem foldl_relax_g_mono {grid : Grid} {config : WallConfig}
    {target u : Cell} (hwf : GridWF config grid) :
    ∀ (ds : List (ℤ × ℤ)) (st : AState) {p : ℕ × ℕ} {v : ℚ},
      st.g p = some v →
      ∃ v', (ds.foldl (relaxNeighbor grid config target u) st).g p = some v' ∧
        v' ≤ v := by
  intro ds
  induction ds with
  | nil => intro st p v h; exact ⟨v, h, le_refl v⟩
  | cons d ds ih =>
      intro st p v h
      rcases @relaxNeighbor_g_mono grid config target u hwf st d _ _ h with
        ⟨v1, h1, hle1⟩
      rcases ih _ h1 with ⟨v2, h2, hle2⟩
      exact ⟨v2, h2, le_trans hle2 hle1⟩

theorem relaxNeighbor_open_super {grid : Grid} {config : WallConfig}
    {target u : Cell} (hwf : GridWF config grid) (st : AState) (d : ℤ × ℤ) :
    ∀ e ∈ st.open_set, e ∈ (relaxNeighbor grid config target u st d).open_set := by
  intro e he
  rcases @relaxNeighbor_cases grid config target u hwf st d with hid | ⟨q, _, _, _, _, hrec⟩
  · rw [hid]; exact he
  · rw [hrec]; exact List.mem_cons_of_mem _ he

theorem foldl_relax_open_super {grid : Grid} {config : WallConfig}
    {target u : Cell} (hwf : GridWF config grid) :
    ∀ (ds : List (ℤ × ℤ)) (st : AState) (e : ℚ × Cell), e ∈ st.open_set →
      e ∈ (ds.foldl (relaxNeighbor grid config target u) st).open_set := by
  intro ds
  induction ds with
  | nil => intro st e he; exact he
  | cons d ds ih =>
      intro st e he
      exact ih _ e (relaxNeighbor_open_super hwf st d e he)

/-- The offsets only write next to `u`, never at `u` itself. -/
theorem dir_target_ne {u : Cell} {d : ℤ × ℤ} (hd : d ∈ neighborDirs)
    {q : ℕ × ℕ} (h1 : (q.1 : ℤ) = (u.row : ℤ) + d.1)
    (h2 : (q.2 : ℤ) = (u.col : ℤ) + d.2) : q ≠ (u.row, u.col) := by
  intro he
  rw [he] at h1 h2
  fin_cases hd <;> simp at h1 h2

theorem relaxNeighbor_g_at_u {grid : Grid} {config : WallConfig}
    {target u : Cell} (hwf : GridWF config grid) (st : AState) {d : ℤ × ℤ}
    (hd : d ∈ neighborDirs) :
    (relaxNeighbor grid config target u st d).g (u.row, u.col) =
      st.g (u.row, u.col) := by
  rcases @relaxNeighbor_cases grid config target u hwf st d with hid | ⟨q, h1, h2, _, _, hrec⟩
  · rw [hid]
  · rw [hrec]
    simp only
    rw [if_neg (fun he => dir_target_ne hd h1 h2 (by rw [he]))]

theorem foldl_relax_g_at_u {grid : Grid} {config : WallConfig}
    {target u : Cell} (hwf : GridWF config grid) :
    ∀ (ds : List (ℤ × ℤ)), (∀ d ∈ ds, d ∈ neighborDirs) → ∀ st : AState,
      (ds.foldl (relaxNeighbor grid config target u) st).g (u.row, u.col) =
        st.g (u.row, u.col) := by
  intro ds
  induction ds with
  | nil => intro _ st; rfl
  | cons d ds ih =>
      intro hds st
      rw [List.foldl_cons, ih (fun x hx => hds x (List.mem_cons_of_mem d hx)),
        relaxNeighbor_g_at_u hwf st (hds d (by simp))]

/-- Fold-level push characterization: each position's g-score is unchanged,
or it now holds the tentative score and a matching fresh entry is in the
open set. -/
theorem foldl_relax_push {grid : Grid} {config : WallConfig}
    {target u : Cell} (hwf : GridWF config grid) :
    ∀ (ds : List (ℤ × ℤ)), (∀ d ∈ ds, d ∈ neighborDirs) → ∀ (st : AState)
      (p : ℕ × ℕ),
      (ds.foldl (relaxNeighbor grid config target u) st).g p = st.g p ∨
      ((ds.foldl (relaxNeighbor grid config target u) st).g p =
          some ((st.g (u.row, u.col)).getD 0 + config.coverage_width) ∧
        ((st.g (u.row, u.col)).getD 0 + config.coverage_width +
            heuristic target (cellAt grid p.1 p.2), cellAt grid p.1 p.2) ∈
          (ds.foldl (relaxNeighbor grid config target u) st).open_set) := by
  intro ds
  induction ds with
  | nil => intro _ st p; exact Or.inl rfl
  | cons d ds ih =>
      intro hds st p
      have hds2 : ∀ x ∈ ds, x ∈ neighborDirs :=
        fun x hx => hds x (List.mem_cons_of_mem d hx)
      rw [List.foldl_cons]
      rcases @relaxNeighbor_cases grid config target u hwf st d with
        hid | ⟨q, h1, h2, hq, hcond, hrec⟩
      · rw [hid]
        exact ih hds2 st p
      · have hgu : (relaxNeighbor grid config target u st d).g (u.row, u.col) =
            st.g (u.row, u.col) := relaxNeighbor_g_at_u hwf st (hds d (by simp))
        rcases ih hds2 (relaxNeighbor grid config target u st d) p with
          hunch | ⟨hval, hmem⟩
        · by_cases hpq : p = q
          · subst hpq
            right
            constructor
            · rw [hunch, hrec]; simp
            · refine foldl_relax_open_super hwf ds _ _ ?_
              rw [hrec]
              exact List.mem_cons_self _ _
          · left
            rw [hunch, hrec]
            simp only
            rw [if_neg hpq]
        · right
          rw [hgu] at hval hmem
          exact ⟨hval, hmem⟩

/-- If a relaxation step leaves the state unchanged although its target
position is in the grid and unblocked, that position already has a g-score
at most the tentative score. -/
theorem relaxNeighbor_id_val {grid : Grid} {config : WallConfig}
    {target u : Cell} (hwf : GridWF config grid) (st : AState) (d : ℤ × ℤ)
    (hid : relaxNeighbor grid config target u st d = st)
    {q : ℕ × ℕ} (h1 : (q.1 : ℤ) = (u.row : ℤ) + d.1)
    (h2 : (q.2 : ℤ) = (u.col : ℤ) + d.2) (hq : UnbAt grid q) :
    ∃ vq, st.g q = some vq ∧
      vq ≤ (st.g (u.row, u.col)).getD 0 + config.coverage_width := by
  have hinb : InB grid q.1 q.2 := unbAt_inB hwf.1 hq
  obtain ⟨hqa, hqb, hqc⟩ := hq
  have hq1 : ((u.row : ℤ) + d.1).toNat = q.1 := by omega
  have hq2 : ((u.col : ℤ) + d.2).toNat = q.2 := by omega
  have hrow := (hwf.2 q.1 q.2 hinb).1
  have hcol := (hwf.2 q.1 q.2 hinb).2.1
  simp only [relaxNeighbor] at hid
  rw [if_neg (by push_neg; omega), if_neg (by push_neg; omega), hq1, hq2] at hid
  rw [if_neg (by rw [hqc]; exact Bool.false_ne_true)] at hid
  rw [hrow, hcol] at hid
  rcases hg : st.g (q.1, q.2) with _ | gn
  · rw [hg] at hid
    have h3 := congrArg (fun s => AState.g s (q.1, q.2)) hid
    simp [hg] at h3
  · rw [hg] at hid
    have h3 := congrArg (fun s => AState.g s (q.1, q.2)) hid
    by_cases hlt : (st.g (u.row, u.col)).getD 0 + config.coverage_width < gn
    · simp [hg, hlt] at h3
      exact ⟨gn, rfl, le_of_eq h3.symm⟩
    · push_neg at hlt
      exact ⟨gn, rfl, hlt⟩

/-- After folding the neighbor offsets over the state, every unblocked
in-grid neighbor of `u` has a g-score at most the tentative score. -/
theorem foldl_relax_relaxed {grid : Grid} {config : WallConfig}
    {target u : Cell} (hwf : GridWF config grid) :
    ∀ (ds : List (ℤ × ℤ)), (∀ d ∈ ds, d ∈ neighborDirs) → ∀ (st : AState)
      (d : ℤ × ℤ), d ∈ ds → ∀ q : ℕ × ℕ,
      (q.1 : ℤ) = (u.row : ℤ) + d.1 → (q.2 : ℤ) = (u.col : ℤ) + d.2 →
      UnbAt grid q →
      ∃ vq, (ds.foldl (relaxNeighbor grid config target u) st).g q = some vq ∧
        vq ≤ (st.g (u.row, u.col)).getD 0 + config.coverage_width := by
  intro ds
  induction ds with
  | nil => intro _ st d hd; cases hd
  | cons d0 ds ih =>
      intro hds st d hd q h1 h2 hq
      have hds2 : ∀ x ∈ ds, x ∈ neighborDirs :=
        fun x hx => hds x (List.mem_cons_of_mem d0 hx)
      have hgu0 : (relaxNeighbor grid config target u st d0).g (u.row, u.col) =
          st.g (u.row, u.col) := relaxNeighbor_g_at_u hwf st (hds d0 (by simp))
      rw [List.foldl_cons]
      rcases List.mem_cons.mp hd with rfl | hd2
      · rcases @relaxNeighbor_cases grid config target u hwf st d with
          hid | ⟨q', h1', h2', hq', hcond, hrec⟩
        · rcases relaxNeighbor_id_val hwf st d hid h1 h2 hq with ⟨vq, hvq, hle⟩
          rw [hid]
          rcases @foldl_relax_g_mono grid config target u hwf ds st _ _ hvq
            with ⟨v2, hv2, hle2⟩
          exact ⟨v2, hv2, le_trans hle2 hle⟩
        · have hqq : q = q' := by
            have e1 : (q.1 : ℤ) = (q'.1 : ℤ) := h1.trans h1'.symm
            have e2 : (q.2 : ℤ) = (q'.2 : ℤ) := h2.trans h2'.symm
            exact Prod.ext (by omega) (by omega)
          subst hqq
          have hval : (relaxNeighbor grid config target u st d).g q =
              some ((st.g (u.row, u.col)).getD 0 + config.coverage_width) := by
            rw [hrec]; simp
          rcases @foldl_relax_g_mono grid config target u hwf ds _ _ _ hval
            with ⟨v2, hv2, hle2⟩
          exact ⟨v2, hv2, hle2⟩
      · have := ih hds2 (relaxNeighbor grid config target u st d0) d hd2 q h1 h2 hq
        rw [hgu0] at this
        exact this

/-- One relaxation step preserves the core invariant. -/
theorem relaxNeighbor_core {grid : Grid} {config : WallConfig}
    {target u : Cell} {s : ℕ × ℕ} {st : AState} (hwf : GridWF config grid)
    (hcw : 0 < config.coverage_width)
    (hu : InB grid u.row u.col ∧ cellAt grid u.row u.col = u ∧
      u.blocked = false)
    {gu : ℚ} (hgu : st.g (u.row, u.col) = some gu)
    {d : ℤ × ℤ} (hd : d ∈ neighborDirs)
    (hinv : AInvCore grid config target s st) :
    AInvCore grid config target s (relaxNeighbor grid config target u st d) := by
  rcases @relaxNeighbor_cases grid config target u hwf st d with
    hid | ⟨q, h1, h2, hq, hcond, hrec⟩
  · rw [hid]; exact hinv
  · have htent : (st.g (u.row, u.col)).getD 0 + config.coverage_width =
        gu + config.coverage_width := by rw [hgu]; rfl
    rw [htent] at hcond hrec
    have hadj : AdjStep (u.row, u.col) q := adjStep_iff_dir.mpr ⟨d, hd, h1, h2⟩
    have hqinb : InB grid q.1 q.2 := unbAt_inB hwf.1 hq
    have hqrow := (hwf.2 q.1 q.2 hqinb).1
    have hqcol := (hwf.2 q.1 q.2 hqinb).2.1
    rcases hinv.gpath _ _ hgu with ⟨huunb, lu, hwalk, hnodup, hlen, hpre⟩
    have hgu_nonneg : 0 ≤ gu := by
      rw [hlen]
      exact mul_nonneg hcw.le (Nat.cast_nonneg _)
    have hqne_s : q ≠ s := by
      intro he
      rw [he] at hcond
      rcases hcond with hnone | ⟨vold, hvold, hlt⟩
      · rw [hinv.gstart] at hnone; cases hnone
      · rw [hinv.gstart] at hvold
        rw [← Option.some.inj hvold] at hlt
        linarith
    have hqnotin : q ∉ s :: lu := by
      intro hmem
      rcases List.mem_cons.mp hmem with he | hmem2
      · exact hqne_s he
      · rcases List.mem_iff_get.mp hmem2 with ⟨⟨i, hi⟩, hget⟩
        rcases hpre i hi with ⟨vq, hvq, hbound⟩
        rw [hget] at hvq
        have hle_gu : vq ≤ gu := by
          rw [hlen]
          calc vq ≤ config.coverage_width * (i + 1) := hbound
            _ ≤ config.coverage_width * lu.length := by
                have hc : (i : ℚ) + 1 ≤ lu.length := by exact_mod_cast hi
                exact mul_le_mul_of_nonneg_left hc hcw.le
        rcases hcond with hnone | ⟨vold, hvold, hlt⟩
        · rw [hvq] at hnone; cases hnone
        · rw [hvq] at hvold
          rw [← Option.some.inj hvold] at hlt
          linarith
    rw [hrec]
    refine ⟨?_, ?_, ?_, ?_, ?_, ?_⟩
    · -- gstart
      dsimp only
      rw [if_neg (fun he => hqne_s he.symm)]
      exact hinv.gstart
    · -- gpath
      intro p v hp
      dsimp only at hp
      by_cases hpq : p = q
      · subst hpq
        rw [if_pos rfl] at hp
        have hv : v = gu + config.coverage_width := (Option.some.inj hp).symm
        subst hv
        refine ⟨hq, lu ++ [p], WalkTo.extend hwalk hadj hq, ?_, ?_, ?_⟩
        · rw [show s :: (lu ++ [p]) = (s :: lu) ++ [p] from rfl,
            List.nodup_append]
          refine ⟨hnodup, List.nodup_singleton p, ?_⟩
          intro a ha hap
          rw [List.mem_singleton.mp hap] at ha
          exact hqnotin ha
        · rw [List.length_append, List.length_singleton, hlen]
          push_cast
          ring
        · intro i hi
          rw [List.length_append, List.length_singleton] at hi
          rcases Nat.lt_succ_iff_lt_or_eq.mp hi with hilt | hieq
          · have hget : (lu ++ [p]).get ⟨i, by rw [List.length_append]; omega⟩ =
                lu.get ⟨i, hilt⟩ := by
              simp [List.get_eq_getElem, List.getElem_append_left hilt]
            rw [hget]
            rcases hpre i hilt with ⟨vq, hvq, hbound⟩
            have hne : lu.get ⟨i, hilt⟩ ≠ p :=
              fun he => hqnotin (he ▸ List.mem_cons_of_mem s
                (List.get_mem lu i hilt))
            dsimp only
            rw [if_neg hne]
            exact ⟨vq, hvq, hbound⟩
          · have hget : (lu ++ [p]).get
                ⟨i, by rw [List.length_append, List.length_singleton]; omega⟩ =
                p := by
              subst hieq
              simp [List.get_eq_getElem]
            rw [hget]
            dsimp only
            rw [if_pos rfl]
            refine ⟨gu + config.coverage_width, rfl, ?_⟩
            rw [hlen, hieq]
            ring_nf
            exact le_refl _
      · rw [if_neg hpq] at hp
        rcases hinv.gpath p v hp with ⟨hunb2, l2, hwalk2, hnd2, hlen2, hpre2⟩
        refine ⟨hunb2, l2, hwalk2, hnd2, hlen2, fun i hi => ?_⟩
        rcases hpre2 i hi with ⟨vq, hvq, hb⟩
        dsimp only
        by_cases hnq : l2.get ⟨i, hi⟩ = q
        · rw [hnq] at hvq ⊢
          rcases hcond with hnone | ⟨vold, hvold, hlt⟩
          · rw [hvq] at hnone; cases hnone
          · rw [hvq] at hvold
            rw [← Option.some.inj hvold] at hlt
            rw [if_pos rfl]
            exact ⟨gu + config.coverage_width, rfl, le_trans hlt.le hb⟩
        · rw [if_neg hnq]
          exact ⟨vq, hvq, hb⟩
    · -- openinv
      intro e he
      dsimp only at he
      rcases List.mem_cons.mp he with rfl | he2
      · refine ⟨?_, ?_, ?_, ?_⟩
        · dsimp only
          rw [hqrow, hqcol]
          exact hqinb
        · dsimp only
          rw [hqrow, hqcol]
        · exact hq.2.2
        · dsimp only
          rw [hqrow, hqcol]
          refine ⟨gu + config.coverage_width, ?_, le_refl _⟩
          rw [show ((q.1 : ℕ), (q.2 : ℕ)) = q from rfl]
          rw [if_pos rfl]
      · rcases hinv.openinv e he2 with ⟨hin, hcell, hbl, v, hv, hle⟩
        refine ⟨hin, hcell, hbl, ?_⟩
        dsimp only
        by_cases hpq : (e.2.row, e.2.col) = q
        · rw [if_pos hpq]
          rw [hpq] at hv
          rcases hcond with hnone | ⟨vold, hvold, hlt⟩
          · rw [hv] at hnone; cases hnone
          · rw [hv] at hvold
            rw [← Option.some.inj hvold] at hlt
            exact ⟨gu + config.coverage_width, rfl,
              le_trans (by linarith) hle⟩
        · rw [if_neg hpq]
          exact ⟨v, hv, hle⟩
    · -- tentry
      intro v hv
      dsimp only at hv
      by_cases htq : (target.row, target.col) = q
      · refine ⟨_, List.mem_cons_self _ _, ?_⟩
        dsimp only
        rw [hqrow, hqcol, htq]
      · rw [if_neg htq] at hv
        rcases hinv.tentry v hv with ⟨e, he, hpos⟩
        exact ⟨e, List.mem_cons_of_mem _ he, hpos⟩
    · -- cameinv
      intro p c hc
      dsimp only at hc
      by_cases hpq : p = q
      · subst hpq
        rw [if_pos rfl] at hc
        have hcu : c = u := (Option.some.inj hc).symm
        subst hcu
        refine ⟨hadj, hq, hu.1, hu.2.1, hu.2.2, hqne_s, ?_, ?_, ?_⟩
        · dsimp only
          rw [if_pos rfl]
          exact ⟨gu + config.coverage_width, rfl⟩
        · dsimp only
          rw [if_neg (fun he => dir_target_ne hd h1 h2 (by rw [he]))]
          exact ⟨gu, hgu⟩
        · intro v w hv hw
          dsimp only at hv hw
          rw [if_pos rfl] at hv
          rw [if_neg (fun he => dir_target_ne hd h1 h2 (by rw [he])), hgu]
            at hw
          rw [← Option.some.inj hv, ← Option.some.inj hw]
      · rw [if_neg hpq] at hc
        rcases hinv.cameinv p c hc with
          ⟨hadj2, hunb2, hinb2, hcell2, hbl2, hps, ⟨v0, hv0⟩, ⟨w0, hw0⟩, hgap⟩
        refine ⟨hadj2, hunb2, hinb2, hcell2, hbl2, hps, ?_, ?_, ?_⟩
        · dsimp only
          rw [if_neg hpq]
          exact ⟨v0, hv0⟩
        · dsimp only
          by_cases hcq : (c.row, c.col) = q
          · rw [if_pos hcq]
            exact ⟨gu + config.coverage_width, rfl⟩
          · rw [if_neg hcq]
            exact ⟨w0, hw0⟩
        · intro v w hv hw
          dsimp only at hv hw
          rw [if_neg hpq] at hv
          by_cases hcq : (c.row, c.col) = q
          · rw [if_pos hcq] at hw
            rw [hcq] at hw0
            rcases hcond with hnone | ⟨vold, hvold, hlt⟩
            · rw [hw0] at hnone; cases hnone
            · have hwv : w = gu + config.coverage_width :=
                (Option.some.inj hw).symm
              rw [← hcq] at hvold
              have hgap2 := hgap v vold hv hvold
              rw [hwv]
              linarith
          · rw [if_neg hcq] at hw
            exact hgap v w hv hw
    · -- camedom
      intro p v hp
      dsimp only at hp
      by_cases hpq : p = q
      · subst hpq
        right
        refine ⟨u, ?_⟩
        dsimp only
        rw [if_pos rfl]
      · rw [if_neg hpq] at hp
        rcases hinv.camedom p v hp with hps | ⟨c, hc⟩
        · exact Or.inl hps
        · right
          refine ⟨c, ?_⟩
          dsimp only
          rw [if_neg hpq]
          exact hc

/-! ## A* correctness: the termination potential -/

/-- Per-position potential: `cellCount` when the position has no g-score yet,
otherwise the walk length its g-score encodes (capped). -/
def phiAt (N : ℕ) (cw : ℚ) (st : AState) (p : ℕ × ℕ) : ℕ :=
  match st.g p with
  | none => N
  | some v => min (N - 1) (Int.toNat ⌊v / cw⌋)

/-- Loop potential: total per-position potential plus the open-set size.
It strictly decreases on every A* iteration. -/
def mu (grid : Grid) (cw : ℚ) (st : AState) : ℕ :=
  ((gridPositions grid).map (phiAt (cellCount grid) cw st)).sum +
    st.open_set.length

theorem phiAt_le (N : ℕ) (cw : ℚ) (st : AState) (p : ℕ × ℕ) :
    phiAt N cw st p ≤ N := by
  unfold phiAt
  rcases st.g p with _ | v
  · exact le_refl N
  · exact le_trans (min_le_left _ _) (Nat.sub_le N 1)

theorem floor_mul_div {cw : ℚ} (hcw : 0 < cw) (k : ℕ) :
    Int.toNat ⌊cw * k / cw⌋ = k := by
  rw [mul_comm, mul_div_assoc, div_self (ne_of_gt hcw), mul_one]
  simp

theorem phiAt_eq {N : ℕ} {cw : ℚ} (hcw : 0 < cw) {st : AState} {p : ℕ × ℕ}
    {v : ℚ} {k : ℕ} (hg : st.g p = some v) (hv : v = cw * k)
    (hk : k + 1 ≤ N) : phiAt N cw st p = k := by
  unfold phiAt
  rw [hg]
  dsimp only
  rw [hv, floor_mul_div hcw]
  omega

/-- The g-score of any recorded position encodes a walk length at most
`cellCount grid - 1`. -/
theorem gpath_k_bound {grid : Grid} {cw : ℚ} {st : AState} {s p : ℕ × ℕ}
    {v : ℚ} (hrect : Rect grid) (h : GPath grid cw st s p v) :
    ∃ k : ℕ, v = cw * k ∧ k + 1 ≤ cellCount grid := by
  rcases h with ⟨hunb, l, hwalk, hnd, hlen, -⟩
  refine ⟨l.length, hlen, ?_⟩
  have hin : ∀ a ∈ s :: l, InB grid a.1 a.2 := by
    intro a ha
    rcases List.mem_cons.mp ha with rfl | ha2
    · exact unbAt_inB hrect hwalk.1
    · exact unbAt_inB hrect (hwalk.2.2.1 a ha2)
  have hle := nodup_inB_length hrect hnd hin
  rw [List.length_cons] at hle
  omega

theorem inB_cellCount_pos {grid : Grid} (hrect : Rect grid) {r c : ℕ}
    (h : InB grid r c) : 0 < cellCount grid := by
  rw [cellCount_rect hrect]
  obtain ⟨ha, hb⟩ := h
  have h2 : c < grid.headI.length := inB_lt_headI hrect (p := (r, c)) ⟨ha, hb⟩
  exact Nat.mul_pos (by omega) (by omega)

/-- One relaxation step never increases the potential. -/
theorem relaxNeighbor_mu {grid : Grid} {config : WallConfig}
    {target u : Cell} {s : ℕ × ℕ} {st : AState} (hwf : GridWF config grid)
    (hcw : 0 < config.coverage_width)
    {gu : ℚ} (hgu : st.g (u.row, u.col) = some gu)
    (hinv : AInvCore grid config target s st) (d : ℤ × ℤ) :
    mu grid config.coverage_width (relaxNeighbor grid config target u st d) ≤
      mu grid config.coverage_width st := by
  rcases @relaxNeighbor_cases grid config target u hwf st d with
    hid | ⟨q, h1, h2, hq, hcond, hrec⟩
  · rw [hid]
  · have htent : (st.g (u.row, u.col)).getD 0 + config.coverage_width =
        gu + config.coverage_width := by rw [hgu]; rfl
    rw [htent] at hcond hrec
    have hqinb : InB grid q.1 q.2 := unbAt_inB hwf.1 hq
    have hN : 0 < cellCount grid := inB_cellCount_pos hwf.1 hqinb
    rcases gpath_k_bound hwf.1 (hinv.gpath _ _ hgu) with ⟨ku, hku, hkuN⟩
    have hql : q ∈ gridPositions grid := mem_gridPositions.mpr hqinb
    have hnewg : (relaxNeighbor grid config target u st d).g q =
        some (gu + config.coverage_width) := by
      rw [hrec]
      dsimp only
      rw [if_pos rfl]
    have hunch : ∀ p, p ≠ q →
        (relaxNeighbor grid config target u st d).g p = st.g p := by
      intro p hpq
      rw [hrec]
      dsimp only
      rw [if_neg hpq]
    have hopenlen : (relaxNeighbor grid config target u st d).open_set.length =
        st.open_set.length + 1 := by
      rw [hrec]
      dsimp only
      rw [List.length_cons]
    have hpoint : ∀ p, p ≠ q →
        phiAt (cellCount grid) config.coverage_width
          (relaxNeighbor grid config target u st d) p =
        phiAt (cellCount grid) config.coverage_width st p := by
      intro p hpq
      unfold phiAt
      rw [hunch p hpq]
    have hqlt : phiAt (cellCount grid) config.coverage_width
        (relaxNeighbor grid config target u st d) q <
        phiAt (cellCount grid) config.coverage_width st q := by
      rcases hcond with hnone | ⟨vold, hvold, hlt⟩
      · have hold : phiAt (cellCount grid) config.coverage_width st q =
            cellCount grid := by
          unfold phiAt; rw [hnone]
        rw [hold]
        have hle : phiAt (cellCount grid) config.coverage_width
            (relaxNeighbor grid config target u st d) q ≤
            cellCount grid - 1 := by
          unfold phiAt
          rw [hnewg]
          exact min_le_left _ _
        omega
      · rcases gpath_k_bound hwf.1 (hinv.gpath _ _ hvold) with ⟨ko, hko, hkoN⟩
        have hklt : ku + 1 < ko := by
          have h3 : config.coverage_width * ((ku : ℚ) + 1) <
              config.coverage_width * ko := by
            rw [hku, hko] at hlt
            linarith
          have h4 := (mul_lt_mul_left hcw).mp h3
          exact_mod_cast h4
        have hold : phiAt (cellCount grid) config.coverage_width st q = ko :=
          phiAt_eq hcw hvold hko hkoN
        have hnew : phiAt (cellCount grid) config.coverage_width
            (relaxNeighbor grid config target u st d) q = ku + 1 := by
          refine phiAt_eq hcw hnewg ?_ (by omega)
          rw [hku]
          push_cast
          ring
        rw [hold, hnew]
        exact hklt
    have hsum : ((gridPositions grid).map (phiAt (cellCount grid)
        config.coverage_width (relaxNeighbor grid config target u st d))).sum <
        ((gridPositions grid).map (phiAt (cellCount grid)
          config.coverage_width st)).sum := by
      refine List.sum_lt_sum _ _ ?_ ⟨q, hql, hqlt⟩
      intro p hp
      by_cases hpq : p = q
      · subst hpq; exact le_of_lt hqlt
      · rw [hpoint p hpq]
    unfold mu
    omega

/-- Folding the neighbor offsets preserves the core invariant and never
increases the potential. -/
theorem foldl_relax_core_mu {grid : Grid} {config : WallConfig}
    {target u : Cell} {s : ℕ × ℕ} (hwf : GridWF config grid)
    (hcw : 0 < config.coverage_width)
    (hu : InB grid u.row u.col ∧ cellAt grid u.row u.col = u ∧
      u.blocked = false) :
    ∀ (ds : List (ℤ × ℤ)), (∀ d ∈ ds, d ∈ neighborDirs) → ∀ (st : AState)
      (gu : ℚ), st.g (u.row, u.col) = some gu →
      AInvCore grid config target s st →
      AInvCore grid config target s
        (ds.foldl (relaxNeighbor grid config target u) st) ∧
      mu grid config.coverage_width
        (ds.foldl (relaxNeighbor grid config target u) st) ≤
        mu grid config.coverage_width st := by
  intro ds
  induction ds with
  | nil => intro _ st gu _ hinv; exact ⟨hinv, le_refl _⟩
  | cons d ds ih =>
      intro hds st gu hgu hinv
      have hd : d ∈ neighborDirs := hds d (by simp)
      have hds2 : ∀ x ∈ ds, x ∈ neighborDirs :=
        fun x hx => hds x (List.mem_cons_of_mem d hx)
      have hinv1 := relaxNeighbor_core hwf hcw hu hgu hd hinv
      have hmu1 := @relaxNeighbor_mu grid config target u s st hwf hcw gu hgu hinv d
      have hgu1 : (relaxNeighbor grid config target u st d).g (u.row, u.col) =
          some gu := by rw [relaxNeighbor_g_at_u hwf st hd]; exact hgu
      rcases ih hds2 (relaxNeighbor grid config target u st d) gu hgu1 hinv1
        with ⟨hinv2, hmu2⟩
      exact ⟨hinv2, le_trans hmu2 hmu1⟩

/-- Removing the popped entry lowers the potential by exactly one. -/
theorem mu_pop {grid : Grid} {cw : ℚ} {st : AState} {e : ℚ × Cell}
    {rest : List (ℚ × Cell)} (hpop : popMin st.open_set = some (e, rest)) :
    mu grid cw { st with open_set := rest } + 1 = mu grid cw st := by
  have hlen : rest.length + 1 = st.open_set.length := by
    have h := (popMin_perm hpop).length_eq
    simpa using h
  show ((gridPositions grid).map (phiAt (cellCount grid) cw st)).sum +
      rest.length + 1 =
    ((gridPositions grid).map (phiAt (cellCount grid) cw st)).sum +
      st.open_set.length
  omega

/-- One full A* iteration (pop a non-target entry, relax its neighbors)
preserves the invariant and strictly decreases the potential. -/
theorem loop_step_AInv {grid : Grid} {config : WallConfig}
    {target u : Cell} {s : ℕ × ℕ} {st : AState} {f : ℚ}
    {rest : List (ℚ × Cell)} (hwf : GridWF config grid)
    (hcw : 0 < config.coverage_width) (hinv : AInv grid config target s st)
    (hpop : popMin st.open_set = some ((f, u), rest))
    (hne : ¬(u.row = target.row ∧ u.col = target.col)) :
    AInv grid config target s
      (neighborDirs.foldl (relaxNeighbor grid config target u)
        { st with open_set := rest }) ∧
    mu grid config.coverage_width
      (neighborDirs.foldl (relaxNeighbor grid config target u)
        { st with open_set := rest }) <
      mu grid config.coverage_width st := by
  have hperm := popMin_perm hpop
  have hpopmem : (f, u) ∈ st.open_set :=
    hperm.mem_iff.mp (List.mem_cons_self _ _)
  rcases hinv.openinv _ hpopmem with ⟨hinb, hcell, hbl, gu, hgu, hkey⟩
  simp only at hinb hcell hbl hgu hkey
  have hrest : ∀ e ∈ rest, e ∈ st.open_set :=
    fun e he => hperm.mem_iff.mp (List.mem_cons_of_mem _ he)
  have hcoremid : AInvCore grid config target s
      { st with open_set := rest } := by
    refine ⟨hinv.gstart, hinv.gpath, ?_, ?_, hinv.cameinv, hinv.camedom⟩
    · intro e he
      exact hinv.openinv e (hrest e he)
    · intro v hv
      rcases hinv.tentry v hv with ⟨e, he, hpos⟩
      rcases List.mem_cons.mp (hperm.symm.mem_iff.mp he) with rfl | he2
      · exfalso
        apply hne
        have h1 := congrArg Prod.fst hpos
        have h2 := congrArg Prod.snd hpos
        exact ⟨h1, h2⟩
      · exact ⟨e, he2, hpos⟩
  rcases foldl_relax_core_mu hwf hcw ⟨hinb, hcell, hbl⟩ neighborDirs
      (fun d hd => hd) { st with open_set := rest } gu hgu hcoremid with
    ⟨hcore, hmu⟩
  have hmu_pop := @mu_pop grid config.coverage_width st (f, u) rest hpop
  refine ⟨⟨hcore, ?_⟩, by omega⟩
  -- fresh
  intro p v hp
  rcases @foldl_relax_push grid config target u hwf neighborDirs
      (fun d hd => hd) { st with open_set := rest } p with
    hunch | ⟨hval, hmem⟩
  · rw [hunch] at hp
    rcases hinv.fresh p v hp with ⟨e, he, hpos, hfkey⟩ | hrel
    · rcases List.mem_cons.mp (hperm.symm.mem_iff.mp he) with rfl | he2
      · right
        have hpu : p = (u.row, u.col) := hpos.symm
        subst hpu
        have hveq : v = gu := by
          rw [hp] at hgu
          exact Option.some.inj hgu
        intro q hadj hq
        rcases adjStep_iff_dir.mp hadj with ⟨d, hd, h1, h2⟩
        rcases @foldl_relax_relaxed grid config target u hwf neighborDirs
            (fun x hx => hx) { st with open_set := rest } d hd q h1 h2 hq
            with ⟨vq, hvq, hle⟩
        refine ⟨vq, hvq, ?_⟩
        rw [hveq]
        rw [hgu] at hle
        exact hle
      · left
        exact ⟨e, foldl_relax_open_super hwf neighborDirs
          { st with open_set := rest } e he2, hpos, hfkey⟩
    · right
      intro q hadj hq
      rcases hrel q hadj hq with ⟨vq, hvq, hle⟩
      rcases @foldl_relax_g_mono grid config target u hwf neighborDirs
          { st with open_set := rest } _ _ hvq with ⟨vq2, hvq2, hle2⟩
      exact ⟨vq2, hvq2, le_trans hle2 hle⟩
  · left
    have hgumid : ({ st with open_set := rest } : AState).g (u.row, u.col) =
        some gu := hgu
    rw [hgumid] at hval hmem
    simp only [Option.getD_some] at hval hmem
    have hveq : v = gu + config.coverage_width := by
      rw [hp] at hval
      exact Option.some.inj hval
    have hunb : UnbAt grid p := (hcore.gpath p v hp).1
    have hpinb : InB grid p.1 p.2 := unbAt_inB hwf.1 hunb
    have hprow := (hwf.2 p.1 p.2 hpinb).1
    have hpcol := (hwf.2 p.1 p.2 hpinb).2.1
    refine ⟨_, hmem, ?_, ?_⟩
    · rw [hprow, hpcol]
    · rw [hveq]

/-- When the target's entry is popped, its recorded g-score is at most
`coverage_width` times the length of any unblocked walk reaching the target:
the popped minimum dominates the fresh frontier entry of the first node of
the walk whose expansion is still pending. -/
theorem popped_target_bound {grid : Grid} {config : WallConfig}
    {target u : Cell} {s : ℕ × ℕ} {st : AState} {f : ℚ}
    {rest : List (ℚ × Cell)} (hwf : GridWF config grid)
    (hcw : 0 < config.coverage_width)
    (htinb : InB grid target.row target.col)
    (htcell : cellAt grid target.row target.col = target)
    (hinv : AInv grid config target s st)
    (hpop : popMin st.open_set = some ((f, u), rest))
    (hupos : u.row = target.row ∧ u.col = target.col) :
    ∀ (l : List (ℕ × ℕ)) (p : ℕ × ℕ) (v : ℚ), st.g p = some v →
      UnbAt grid p → List.Chain AdjStep p l → (∀ q ∈ l, UnbAt grid q) →
      l.getLastD p = (target.row, target.col) →
      ∃ vt, st.g (target.row, target.col) = some vt ∧
        vt ≤ v + config.coverage_width * l.length := by
  have hpopmem : (f, u) ∈ st.open_set :=
    (popMin_perm hpop).mem_iff.mp (List.mem_cons_self _ _)
  rcases hinv.openinv _ hpopmem with ⟨hinb, hcell, hbl, gu, hgu, hkey⟩
  simp only at hinb hcell hbl hgu hkey
  have hut : u = target := by
    rw [hupos.1, hupos.2, htcell] at hcell
    exact hcell.symm
  have hgt : st.g (target.row, target.col) = some gu := by
    rw [← hupos.1, ← hupos.2]
    exact hgu
  have hgu_f : gu ≤ f := by
    rw [hut, heuristic_self] at hkey
    linarith
  intro l
  induction l with
  | nil =>
      intro p v hp _ _ _ hlast
      simp only [List.getLastD_nil] at hlast
      rw [hlast] at hp
      exact ⟨v, hp, by simp⟩
  | cons q l ih =>
      intro p v hp hpunb hchain hall hlast
      rcases List.chain_cons.mp hchain with ⟨hpq, hchain2⟩
      rcases hinv.fresh p v hp with ⟨e, he, hpos, hfkey⟩ | hrel
      · have hmin := popMin_min hpop e he
        have hfle : f ≤ e.1 := by
          unfold keyLt at hmin
          push_neg at hmin
          exact hmin.1
        rcases hinv.openinv e he with ⟨heinb, hecell, -, -⟩
        have hecp : e.2 = cellAt grid p.1 p.2 := by
          rw [← hecell]
          have h1 := congrArg Prod.fst hpos
          have h2 := congrArg Prod.snd hpos
          simp only at h1 h2
          rw [h1, h2]
        have hpinb : InB grid p.1 p.2 := by
          have h1 := congrArg Prod.fst hpos
          have h2 := congrArg Prod.snd hpos
          simp only at h1 h2
          rw [← h1, ← h2]
          exact heinb
        have hh := walk_heuristic_le hwf hcw
          (t := (target.row, target.col)) htinb (q :: l) p hpinb hchain
          (fun r hr => unbAt_inB hwf.1 (hall r hr)) hlast
        rw [htcell] at hh
        refine ⟨gu, hgt, ?_⟩
        rw [hfkey, hecp] at hfle
        calc gu ≤ f := hgu_f
          _ ≤ v + heuristic target (cellAt grid p.1 p.2) := hfle
          _ ≤ v + config.coverage_width * (q :: l).length := by linarith
      · rcases hrel q hpq (hall q (by simp)) with ⟨vq, hvq, hle⟩
        rcases ih q vq hvq (hall q (by simp)) hchain2
          (fun r hr => hall r (by simp [hr]))
          (by rw [List.getLastD_cons] at hlast; exact hlast) with
          ⟨vt, hvt, hbound⟩
        refine ⟨vt, hvt, ?_⟩
        rw [List.length_cons]
        push_cast
        linarith

/-- If the open set is empty, no unblocked walk joins the start to the
target (otherwise the first unexpanded node of the walk would still hold a
fresh open entry). -/
theorem open_empty_unreach {grid : Grid} {config : WallConfig}
    {target : Cell} {s : ℕ × ℕ} {st : AState}
    (hinv : AInv grid config target s st) (hempty : st.open_set = []) :
    ¬ Reach grid s (target.row, target.col) := by
  rintro ⟨l, hsunb, hchain, hall, hlast⟩
  have haux : ∀ (l2 : List (ℕ × ℕ)) (p : ℕ × ℕ) (v : ℚ), st.g p = some v →
      List.Chain AdjStep p l2 → (∀ q ∈ l2, UnbAt grid q) →
      l2.getLastD p = (target.row, target.col) →
      ∃ vt, st.g (target.row, target.col) = some vt := by
    intro l2
    induction l2 with
    | nil =>
        intro p v hp _ _ hlast2
        simp only [List.getLastD_nil] at hlast2
        rw [hlast2] at hp
        exact ⟨v, hp⟩
    | cons q l2 ih =>
        intro p v hp hchain2 hall2 hlast2
        rcases List.chain_cons.mp hchain2 with ⟨hpq, hchain3⟩
        rcases hinv.fresh p v hp with ⟨e, he, -⟩ | hrel
        · rw [hempty] at he
          cases he
        · rcases hrel q hpq (hall2 q (by simp)) with ⟨vq, hvq, -⟩
          exact ih q vq hvq hchain3 (fun r hr => hall2 r (by simp [hr]))
            (by rw [List.getLastD_cons] at hlast2; exact hlast2)
  rcases haux l s 0 hinv.gstart hchain hall hlast with ⟨vt, hvt⟩
  rcases hinv.tentry vt hvt with ⟨e, he, -⟩
  rw [hempty] at he
  cases he

/-- `reconstruct_path` walks the `came_from` chain back to the start and
emits the centers of a walk whose length is the g-score over
`coverage_width`; the chain is acyclic because g-scores strictly decrease
along it, so `cellCount + 1` fuel suffices. -/
theorem reconstruct_correct {grid : Grid} {config : WallConfig}
    {target start : Cell} {s : ℕ × ℕ} {st : AState}
    (hwf : GridWF config grid) (hcw : 0 < config.coverage_width)
    (hinv : AInv grid config target s st) (hs : s = (start.row, start.col)) :
    ∀ (k fuel : ℕ), k < fuel → ∀ (t : Cell) (vt : ℚ),
      st.g (t.row, t.col) = some vt → vt = config.coverage_width * k →
      InB grid t.row t.col → cellAt grid t.row t.col = t →
      ∃ l : List (ℕ × ℕ),
        reconstructAux st.came start fuel t = l.map (navWp config) ∧
        WalkTo grid s l (t.row, t.col) ∧ l.length ≤ k := by
  intro k
  induction k using Nat.strong_induction_on with
  | _ k ih =>
      intro fuel hkf t vt hgt hvt htinb htcell
      cases fuel with
      | zero => omega
      | succ fuel =>
          rw [reconstructAux]
          rcases hc : st.came (t.row, t.col) with _ | prev
          · rcases hinv.camedom _ _ hgt with hts | ⟨c, hcame⟩
            · simp only [hc]
              refine ⟨[], rfl, ⟨(hinv.gpath s 0 hinv.gstart).1,
                List.Chain.nil, ?_, ?_⟩, by simp⟩
              · intro a ha
                cases ha
              · simp only [List.getLastD_nil]
                exact hts.symm
            · rw [hcame] at hc
              cases hc
          · have hci := hinv.cameinv _ _ hc
            rcases hci with ⟨hadj, hunbp, hpinb, hpcell, hpbl, hps,
              ⟨v0, hv0⟩, ⟨w0, hw0⟩, hgap⟩
            have hgapv := hgap vt w0 hgt hw0
            rcases gpath_k_bound hwf.1 (hinv.gpath _ _ hw0) with
              ⟨k2, hk2, hk2N⟩
            have hk2k : k2 < k := by
              have h3 : config.coverage_width * ((k2 : ℚ) + 1) ≤
                  config.coverage_width * k := by
                rw [hk2] at hgapv
                rw [hvt] at hgapv
                linarith
              have h4 := (mul_le_mul_left hcw).mp h3
              exact_mod_cast (by linarith : (k2 : ℚ) + 1 ≤ k)
            rcases ih k2 hk2k fuel (by omega) prev w0 hw0 hk2 hpinb hpcell
              with ⟨l2, heq2, hwalk2, hlen2⟩
            have hcond : ¬(t.row = start.row ∧ t.col = start.col) := by
              intro hcd
              exact hps (by rw [hs, hcd.1, hcd.2])
            simp only [hc]
            rw [if_neg hcond]
            refine ⟨l2 ++ [(t.row, t.col)], ?_, ?_, ?_⟩
            · rw [List.map_append, heq2]
              congr 1
              have hx := (hwf.2 t.row t.col htinb).2.2.1
              have hy := (hwf.2 t.row t.col htinb).2.2.2
              rw [htcell] at hx hy
              simp only [List.map_cons, List.map_nil]
              unfold navWp
              dsimp only
              rw [← hx, ← hy]
            · exact hwalk2.extend hadj hunbp
            · rw [List.length_append, List.length_singleton]
              omega

theorem popMin_eq_none {l : List (ℚ × Cell)} (h : popMin l = none) : l = [] := by
  cases l with
  | nil => rfl
  | cons a as => rw [popMin] at h; cases h

/-- Correctness of the A* loop under the invariant: with fuel above the
potential, the loop returns `[]` exactly when the target is unreachable,
and otherwise returns the centers of a shortest unblocked walk from the
start to the target. -/
theorem astarLoop_correct {grid : Grid} {config : WallConfig}
    {target start : Cell} {s : ℕ × ℕ}
    (hwf : GridWF config grid) (hcw : 0 < config.coverage_width)
    (htinb : InB grid target.row target.col)
    (htcell : cellAt grid target.row target.col = target)
    (hs : s = (start.row, start.col)) :
    ∀ (fuel : ℕ) (st : AState), AInv grid config target s st →
      mu grid config.coverage_width st < fuel →
      (¬ Reach grid s (target.row, target.col) →
        astarLoop grid config target start fuel st = []) ∧
      (Reach grid s (target.row, target.col) →
        ∃ l, astarLoop grid config target start fuel st =
            l.map (navWp config) ∧
          WalkTo grid s l (target.row, target.col) ∧
          ∀ l2, WalkTo grid s l2 (target.row, target.col) →
            l.length ≤ l2.length) := by
  intro fuel
  induction fuel with
  | zero => intro st _ h; omega
  | succ fuel ih =>
      intro st hinv hfuel
      rw [astarLoop]
      rcases hp : popMin st.open_set with _ | efrest
      · have hempty := popMin_eq_none hp
        simp only [hp]
        constructor
        · intro _; trivial
        · intro hre
          exact absurd hre (open_empty_unreach hinv hempty)
      · obtain ⟨⟨f, u⟩, rest⟩ := efrest
        simp only [hp]
        by_cases hrc : u.row = target.row ∧ u.col = target.col
        · rw [if_pos hrc]
          have hpopmem : (f, u) ∈ st.open_set :=
            (popMin_perm hp).mem_iff.mp (List.mem_cons_self _ _)
          rcases hinv.openinv _ hpopmem with ⟨hinb, hcell, hbl, gu, hgu, hkey⟩
          simp only at hinb hcell hbl hgu hkey
          rcases gpath_k_bound hwf.1 (hinv.gpath _ _ hgu) with ⟨k, hk, hkN⟩
          rcases reconstruct_correct hwf hcw hinv hs k (cellCount grid + 1)
            (by omega) u gu hgu hk hinb hcell with ⟨l, heq, hwalk, hlen⟩
          have hwalk2 : WalkTo grid s l (target.row, target.col) := by
            rw [← hrc.1, ← hrc.2]
            exact hwalk
          constructor
          · intro hnr
            exact absurd ⟨l, hwalk2⟩ hnr
          · intro _
            refine ⟨l, heq, hwalk2, ?_⟩
            intro l2 hw2
            obtain ⟨hsu, hch, hal, hla⟩ := hw2
            rcases popped_target_bound hwf hcw htinb htcell hinv hp hrc l2 s 0
              hinv.gstart hsu hch hal hla with ⟨vt, hvt, hbd⟩
            have hgt : st.g (target.row, target.col) = some gu := by
              rw [← hrc.1, ← hrc.2]
              exact hgu
            have hveq : vt = gu := by
              rw [hgt] at hvt
              exact (Option.some.inj hvt).symm
            rw [hveq, hk] at hbd
            have hcast : (k : ℚ) ≤ l2.length :=
              (mul_le_mul_left hcw).mp (by linarith)
            have hkl2 : k ≤ l2.length := by exact_mod_cast hcast
            omega
        · rw [if_neg hrc]
          rcases loop_step_AInv hwf hcw hinv hp hrc with ⟨hinv2, hmu2⟩
          exact ih _ hinv2 (by omega)

theorem gridPositions_length (grid : Grid) :
    (gridPositions grid).length = cellCount grid := by
  unfold gridPositions cellCount
  rw [List.length_flatten, List.map_map]
  have key : ∀ (l : List (List Cell)) (f : ℕ → ℕ → ℕ × ℕ),
      ((List.range l.length).map (fun r =>
        ((List.range (l.getD r []).length).map (f r)).length)).sum =
      (l.map List.length).sum := by
    intro l
    induction l with
    | nil => intro f; simp
    | cons a as ih =>
        intro f
        rw [List.length_cons, List.range_succ_eq_map, List.map_cons,
          List.map_map, List.sum_cons, List.map_cons, List.sum_cons]
        congr 1
        · simp
        · rw [← ih (fun r => f (r + 1))]
          apply congrArg List.sum
          apply List.map_congr_left
          intro r hr
          simp [Function.comp]
  exact key grid (fun r c => (r, c))

/-- The initial potential is below the fuel `find_path_around_obstacles`
passes to the loop. -/
theorem mu_init_lt (grid : Grid) (cw : ℚ) (st : AState)
    (hlen : st.open_set.length = 1) :
    mu grid cw st < astarFuel grid := by
  unfold mu astarFuel
  rw [hlen]
  have hsum : ((gridPositions grid).map (phiAt (cellCount grid) cw st)).sum ≤
      (gridPositions grid).length * cellCount grid := by
    have h := List.sum_le_card_nsmul
      ((gridPositions grid).map (phiAt (cellCount grid) cw st))
      (cellCount grid) ?_
    · simpa using h
    · intro x hx
      rcases List.mem_map.mp hx with ⟨p, -, rfl⟩
      exact phiAt_le _ _ _ _
  rw [gridPositions_length] at hsum
  omega

/-- The initial A* state satisfies the loop invariant. -/
theorem AInv_init {grid : Grid} {config : WallConfig} {target start : Cell}
    (hwf : GridWF config grid)
    (hsinb : InB grid start.row start.col)
    (hscell : cellAt grid start.row start.col = start)
    (hsbl : start.blocked = false) :
    AInv grid config target (start.row, start.col)
      { open_set := [(heuristic target start, start)],
        came := fun _ => none,
        g := fun p => if p = (start.row, start.col) then some 0 else none } := by
  have hsunb : UnbAt grid (start.row, start.col) :=
    inB_unbAt hwf.1 hsinb (by rw [hscell]; exact hsbl)
  refine ⟨⟨?_, ?_, ?_, ?_, ?_, ?_⟩, ?_⟩
  · dsimp only
    rw [if_pos rfl]
  · intro p v hp
    dsimp only at hp
    by_cases hps : p = (start.row, start.col)
    · subst hps
      rw [if_pos rfl] at hp
      have hv : v = 0 := (Option.some.inj hp).symm
      subst hv
      refine ⟨hsunb, [], ⟨hsunb, List.Chain.nil, ?_, rfl⟩,
        List.nodup_singleton _, ?_, ?_⟩
      · intro a ha
        cases ha
      · simp
      · intro i hi
        simp at hi
    · rw [if_neg hps] at hp
      cases hp
  · intro e he
    rcases List.mem_singleton.mp he with rfl
    refine ⟨hsinb, hscell, hsbl, 0, ?_, ?_⟩
    · dsimp only
      rw [if_pos rfl]
    · rw [zero_add]
  · intro v hv
    dsimp only at hv
    by_cases hts : (target.row, target.col) = (start.row, start.col)
    · refine ⟨(heuristic target start, start), List.mem_singleton_self _, ?_⟩
      exact hts.symm
    · rw [if_neg hts] at hv
      cases hv
  · intro p c hc
    cases hc
  · intro p v hp
    dsimp only at hp
    by_cases hps : p = (start.row, start.col)
    · exact Or.inl hps
    · rw [if_neg hps] at hp
      cases hp
  · intro p v hp
    dsimp only at hp
    by_cases hps : p = (start.row, start.col)
    · subst hps
      rw [if_pos rfl] at hp
      left
      refine ⟨(heuristic target start, start), List.mem_singleton_self _,
        rfl, ?_⟩
      rw [← Option.some.inj hp]
      rw [zero_add]
    · rw [if_neg hps] at hp
      cases hp

/-- Correctness of `find_path_around_obstacles` when the nearest cell is
unblocked: `[]` exactly on unreachability, otherwise the centers of a
shortest unblocked walk. -/
theorem find_path_correct {grid : Grid} {config : WallConfig}
    {target start_cell : Cell} {sx sy : ℚ}
    (hwf : GridWF config grid) (hcw : 0 < config.coverage_width)
    (htinb : InB grid target.row target.col)
    (htcell : cellAt grid target.row target.col = target)
    (hfind : find_nearest_cell grid sx sy = some start_cell)
    (hsbl : start_cell.blocked = false) :
    (¬ Reach grid (start_cell.row, start_cell.col)
        (target.row, target.col) →
      find_path_around_obstacles grid sx sy target config = []) ∧
    (Reach grid (start_cell.row, start_cell.col) (target.row, target.col) →
      ∃ l, find_path_around_obstacles grid sx sy target config =
          l.map (navWp config) ∧
        WalkTo grid (start_cell.row, start_cell.col) l
          (target.row, target.col) ∧
        ∀ l2, WalkTo grid (start_cell.row, start_cell.col) l2
          (target.row, target.col) → l.length ≤ l2.length) := by
  have hmem := find_nearest_cell_mem hfind
  rcases hmem with ⟨r, c, hinb, hcell⟩
  have hrow : start_cell.row = r := by
    rw [← hcell]
    exact (hwf.2 r c hinb).1
  have hcol : start_cell.col = c := by
    rw [← hcell]
    exact (hwf.2 r c hinb).2.1
  have hsinb : InB grid start_cell.row start_cell.col := by
    rw [hrow, hcol]
    exact hinb
  have hscell : cellAt grid start_cell.row start_cell.col = start_cell := by
    rw [hrow, hcol]
    exact hcell
  have heq : find_path_around_obstacles grid sx sy target config =
      astarLoop grid config target start_cell (astarFuel grid)
        { open_set := [(heuristic target start_cell, start_cell)],
          came := fun _ => none,
          g := fun p => if p = (start_cell.row, start_cell.col) then some 0
            else none } := by
    unfold find_path_around_obstacles
    rw [hfind]
    dsimp only
    rw [if_neg (by rw [hsbl]; exact Bool.false_ne_true)]
  rw [heq]
  exact astarLoop_correct hwf hcw htinb htcell rfl (astarFuel grid) _
    (AInv_init hwf hsinb hscell hsbl)
    (mu_init_lt grid config.coverage_width _ rfl)

/-- The marked planner grid is well-formed: `create_grid` stores each cell's
own indices and center, and `mark_obstacles` only rewrites `blocked`. -/
theorem plannerGrid_wf (config : WallConfig) :
    GridWF config (plannerGrid config) := by
  refine ⟨plannerGrid_rect config, ?_⟩
  intro r c hin
  rw [plannerGrid_inB] at hin
  rw [plannerGrid, mark_obstacles,
    cellAt_map _ _ (by rw [create_grid_row_length config hin.1]; exact hin.2),
    cellAt_create_grid config hin.1 hin.2]
  split <;> exact ⟨rfl, rfl, rfl, rfl⟩

/-- C3: amended.  The unconditional claim fails when the nearest cell is
blocked (counterexample `c3_counterexample_blocked_nearest`).  Amended with
that proviso: on a well-formed grid with positive coverage width, when the
cell nearest the start position is unblocked and the target is an in-grid
cell reachable from it through unblocked cells, the Navigator returns
exactly the centers of a SHORTEST 4-connected walk through unblocked cells
from the nearest cell to the target cell — excluding the start cell, every
waypoint tagged "move", consecutive waypoints one grid step apart (the walk
chain), and no unblocked walk is shorter. -/
theorem c3_navigator_shortest_path {grid : Grid} {config : WallConfig}
    {target start_cell : Cell} {sx sy : ℚ}
    (hwf : GridWF config grid) (hcw : 0 < config.coverage_width)
    (htinb : InB grid target.row target.col)
    (htcell : cellAt grid target.row target.col = target)
    (hfind : find_nearest_cell grid sx sy = some start_cell)
    (hsbl : start_cell.blocked = false)
    (hreach : Reach grid (start_cell.row, start_cell.col)
      (target.row, target.col)) :
    ∃ l : List (ℕ × ℕ),
      find_path_around_obstacles grid sx sy target config =
        l.map (navWp config) ∧
      WalkTo grid (start_cell.row, start_cell.col) l
        (target.row, target.col) ∧
      (∀ wp ∈ find_path_around_obstacles grid sx sy target config,
        wp.action = "move") ∧
      ∀ l2, WalkTo grid (start_cell.row, start_cell.col) l2
        (target.row, target.col) → l.length ≤ l2.length := by
  rcases (find_path_correct hwf hcw htinb htcell hfind hsbl).2 hreach with
    ⟨l, heq, hwalk, hmin⟩
  refine ⟨l, heq, hwalk, ?_, hmin⟩
  intro wp hwp
  rw [heq] at hwp
  rcases List.mem_map.mp hwp with ⟨p, -, rfl⟩
  rfl

theorem c3_navigator_shortest_path_witness :
    (0 : ℚ) < cfgCorner.coverage_width ∧
    ∃ l : List (ℕ × ℕ),
      find_path_around_obstacles gridCorner (3/2) (1/2)
        (cellAt gridCorner 0 2) cfgCorner = l.map (navWp cfgCorner) ∧
      WalkTo gridCorner
        ((cellAt gridCorner 0 1).row, (cellAt gridCorner 0 1).col) l
        ((cellAt gridCorner 0 2).row, (cellAt gridCorner 0 2).col) ∧
      (∀ wp ∈ find_path_around_obstacles gridCorner (3/2) (1/2)
        (cellAt gridCorner 0 2) cfgCorner, wp.action = "move") ∧
      ∀ l2, WalkTo gridCorner
        ((cellAt gridCorner 0 1).row, (cellAt gridCorner 0 1).col) l2
        ((cellAt gridCorner 0 2).row, (cellAt gridCorner 0 2).col) →
        l.length ≤ l2.length :=
  ⟨by decide,
    c3_navigator_shortest_path (plannerGrid_wf cfgCorner) (by decide)
      ⟨by decide, by decide⟩ rfl (by decide) (by decide)
      ⟨[((cellAt gridCorner 0 2).row, (cellAt gridCorner 0 2).col)],
        by decide, List.Chain.cons (by decide) List.Chain.nil,
        by decide, rfl⟩⟩

/-- C7: amended.  The claim's two cases are incomplete: the Navigator also
returns the empty sequence when the nearest cell IS the target cell
(counterexample `c7_counterexample_start_is_target`, where the target is
unblocked and trivially reachable).  Amended characterization: on a
well-formed grid with positive coverage width and an in-grid target, the
Navigator returns `[]` exactly when the nearest-cell resolution fails (no
cell, or the nearest cell is blocked), or the target is unreachable from
the nearest cell through unblocked cells (the open set empties), or the
nearest cell already coincides with the target. -/
theorem c7_navigator_empty_iff {grid : Grid} {config : WallConfig}
    {target : Cell} {sx sy : ℚ}
    (hwf : GridWF config grid) (hcw : 0 < config.coverage_width)
    (htinb : InB grid target.row target.col)
    (htcell : cellAt grid target.row target.col = target) :
    find_path_around_obstacles grid sx sy target config = [] ↔
      find_nearest_cell grid sx sy = none ∨
      (∃ c, find_nearest_cell grid sx sy = some c ∧ c.blocked = true) ∨
      (∃ c, find_nearest_cell grid sx sy = some c ∧ c.blocked = false ∧
        ¬ Reach grid (c.row, c.col) (target.row, target.col)) ∨
      (∃ c, find_nearest_cell grid sx sy = some c ∧ c.blocked = false ∧
        (c.row, c.col) = (target.row, target.col)) := by
  constructor
  · intro hempty
    rcases hf : find_nearest_cell grid sx sy with _ | c0
    · exact Or.inl rfl
    · cases hbl : c0.blocked with
      | true => exact Or.inr (Or.inl ⟨c0, rfl, hbl⟩)
      | false =>
          by_cases hre : Reach grid (c0.row, c0.col) (target.row, target.col)
          · by_cases hpos : (c0.row, c0.col) = (target.row, target.col)
            · exact Or.inr (Or.inr (Or.inr ⟨c0, rfl, hbl, hpos⟩))
            · exfalso
              rcases (find_path_correct hwf hcw htinb htcell hf hbl).2 hre
                with ⟨l, heq, hwalk, -⟩
              have hlne : l ≠ [] := hwalk.ne_nil hpos
              rw [hempty] at heq
              exact hlne (List.map_eq_nil_iff.mp heq.symm)
          · exact Or.inr (Or.inr (Or.inl ⟨c0, rfl, hbl, hre⟩))
  · rintro (hf | ⟨c0, hf, hbl⟩ | ⟨c0, hf, hbl, hre⟩ | ⟨c0, hf, hbl, hpos⟩)
    · unfold find_path_around_obstacles
      simp only [hf]
    · unfold find_path_around_obstacles
      simp only [hf]
      rw [if_pos hbl]
    · exact (find_path_correct hwf hcw htinb htcell hf hbl).1 hre
    · rcases find_nearest_cell_mem hf with ⟨r, c, hinb, hcell⟩
      have hrow : c0.row = r := by
        rw [← hcell]
        exact (hwf.2 r c hinb).1
      have hcol : c0.col = c := by
        rw [← hcell]
        exact (hwf.2 r c hinb).2.1
      have hsinb : InB grid c0.row c0.col := by
        rw [hrow, hcol]
        exact hinb
      have hscell : cellAt grid c0.row c0.col = c0 := by
        rw [hrow, hcol]
        exact hcell
      have hsunb : UnbAt grid (c0.row, c0.col) :=
        inB_unbAt hwf.1 hsinb (by rw [hscell]; exact hbl)
      have hwalk0 : WalkTo grid (c0.row, c0.col) []
          (target.row, target.col) := by
        refine ⟨hsunb, List.Chain.nil, ?_, ?_⟩
        · intro a ha
          cases ha
        · simp only [List.getLastD_nil]
          exact hpos
      rcases (find_path_correct hwf hcw htinb htcell hf hbl).2 ⟨[], hwalk0⟩
        with ⟨l, heq, hwalk, hmin⟩
      have hl0 : l.length ≤ 0 := hmin [] hwalk0
      have hlnil : l = [] := List.length_eq_zero.mp (by omega)
      rw [heq, hlnil]
      rfl

theorem c7_navigator_empty_iff_witness :
    (0 : ℚ) < cfgUnit.coverage_width ∧
    (find_path_around_obstacles gridUnit (1/2) (1/2)
        (cellAt gridUnit 0 0) cfgUnit = [] ↔
      find_nearest_cell gridUnit (1/2) (1/2) = none ∨
      (∃ c, find_nearest_cell gridUnit (1/2) (1/2) = some c ∧
        c.blocked = true) ∨
      (∃ c, find_nearest_cell gridUnit (1/2) (1/2) = some c ∧
        c.blocked = false ∧
        ¬ Reach gridUnit (c.row, c.col)
          ((cellAt gridUnit 0 0).row, (cellAt gridUnit 0 0).col)) ∨
      (∃ c, find_nearest_cell gridUnit (1/2) (1/2) = some c ∧
        c.blocked = false ∧
        (c.row, c.col) =
          ((cellAt gridUnit 0 0).row, (cellAt gridUnit 0 0).col))) :=
  ⟨by decide,
    c7_navigator_empty_iff (plannerGrid_wf cfgUnit) (by decide)
      ⟨by decide, by decide⟩ rfl⟩
